import Mathlib

/-!
# A shallow embedding of the pydra engine core (graph.py, specs.py)

This file embeds, in Lean 4, the parts of `pydra/engine/graph.py` and
`pydra/engine/specs.py` that the specification's claims are about, and
settles each claim with a theorem.

Modelling conventions:
* Task nodes are identified by their (unique) names, modelled as `String`;
  the Python code keys its adjacency dictionaries by `node.name` and the
  graph construction rejects repeated nodes, so this is faithful for every
  reachable graph state.
* Python dictionaries keyed by node names are association lists
  (`GDict` below).  `dictGet` returns `[]` for a missing key; every dictionary
  read performed by the verified executions below is on a present key, so
  this agrees with Python (which would raise `KeyError`) on all states the
  theorems talk about.
* Python `list.remove` removes the first occurrence of an element and is
  modelled by `List.erase`; every `remove` performed by the verified
  executions below is on a present element, where these agree.
* The `while` loop of `DiGraph.sorting` is modelled with explicit fuel
  (`sortingLoop`); `none` means the loop did not finish within the given
  fuel.  Once an iteration extracts an empty layer from a nonempty
  remainder the loop state repeats forever, so `none` for every fuel is
  exactly Python-level nontermination.
-/

namespace Pydra

/-! ## Dictionaries keyed by node name (`self.predecessors`, `self.successors`) -/

/-- An association list modelling a Python `dict` from node names to node lists. -/
abbrev GDict := List (String × List String)

/-- `d[k]` for our dictionaries; `[]` when the key is absent (every read the
theorems exercise is on a present key, matching Python). -/
def dictGet : GDict → String → List String
  | [], _ => []
  | p :: ps, k => if p.1 = k then p.2 else dictGet ps k

/-- `d[k] = v`: update the (unique) binding of `k`, or append a new one. -/
def dictSet : GDict → String → List String → GDict
  | [], k, v => [(k, v)]
  | p :: ps, k, v => if p.1 = k then (k, v) :: ps else p :: dictSet ps k v

/-- `d.pop(k)`: drop the binding of `k`. -/
def dictPop (d : GDict) (k : String) : GDict :=
  d.filter (fun p => p.1 ≠ k)

/-- `k in d`. -/
def dictHas (d : GDict) (k : String) : Bool :=
  d.any (fun p => p.1 = k)

/-! ## The graph state (`DiGraph.__init__` fields) -/

/-- Errors raised by the graph operations; Python raises bare `Exception`s
with the quoted messages.  `hang` is not a Python exception: it marks an
execution on which the sorting `while` loop never terminates. -/
inductive GErr where
  /-- "nodes have repeated elements" -/
  | repeatedNodes : GErr
  /-- "edge ... can't be added to the graph" -/
  | invalidEdge : GErr
  /-- "... is not present in the graph" -/
  | notInGraph : GErr
  /-- "this node shoudn't be run, has to wait" -/
  | notReady : GErr
  /-- the sorting loop never terminates (no Python exception is raised) -/
  | hang : GErr
deriving DecidableEq, Repr

/-- The mutable state of a `DiGraph`:
`_nodes`, `_edges`, `predecessors`, `successors`, `_node_wip`, `_sorted_nodes`. -/
structure DiGraph where
  nodes : List String
  edges : List (String × String)
  predecessors : GDict
  successors : GDict
  nodeWip : List String
  sortedNodes : Option (List String)
deriving DecidableEq, Repr

/-- The loop body of `DiGraph._create_connections` and of the adjacency
update in `DiGraph.add_edges`: for each edge `(nd_out, nd_in)`,
`predecessors[nd_in].append(nd_out)` and `successors[nd_out].append(nd_in)`. -/
def connFold (edges : List (String × String)) (pd sc : GDict) : GDict × GDict :=
  edges.foldl
    (fun ps e =>
      (dictSet ps.1 e.2 (dictGet ps.1 e.2 ++ [e.1]),
       dictSet ps.2 e.1 (dictGet ps.2 e.1 ++ [e.2])))
    (pd, sc)

/-- The empty adjacency map `{nd.name: [] for nd in nodes}`. -/
def initDict (nodes : List String) : GDict :=
  nodes.map (fun n => (n, []))

/-- `DiGraph(nodes=..., edges=...)`: the nodes setter rejects repeated
elements, the edges setter rejects edges whose endpoints are not graph
members, then `_create_connections` builds both adjacency maps. -/
def construct (nodes : List String) (edges : List (String × String)) :
    Except GErr DiGraph :=
  if nodes.Nodup then
    if edges.all (fun e => decide (e.1 ∈ nodes) && decide (e.2 ∈ nodes)) then
      let ps := connFold edges (initDict nodes) (initDict nodes)
      .ok { nodes := nodes, edges := edges, predecessors := ps.1,
            successors := ps.2, nodeWip := [], sortedNodes := none }
    else .error .invalidEdge
  else .error .repeatedNodes

/-! ## Sorting (`DiGraph.sorting` / `DiGraph._sorting`) -/

/-- `DiGraph._sorting(notsorted_list, predecessors)`: one pass that appends
each node with no remaining predecessors to the sorted part and every other
node to the remainder, preserving order. -/
def sortingPass (notsorted : List String) (pd : GDict) :
    List String × List String :=
  notsorted.foldl
    (fun acc nd =>
      if (dictGet pd nd).isEmpty then (acc.1 ++ [nd], acc.2)
      else (acc.1, acc.2 ++ [nd]))
    ([], [])

/-- `for nd_in in successors[u]: predecessors[nd_in].remove(u)` — the inner
update run for one extracted (or in-flight) node `u`. -/
def dropNodeEntries (u : String) (vs : List String) (pd : GDict) : GDict :=
  vs.foldl (fun pd v => dictSet pd v ((dictGet pd v).erase u)) pd

/-- The predecessor-entry removal loop run for each node of `us`
(`sorted_part` in the main loop, `_node_wip` in the preamble of
`DiGraph.sorting`). -/
def dropEntries (succs : GDict) (us : List String) (pd : GDict) : GDict :=
  us.foldl (fun pd u => dropNodeEntries u (dictGet succs u) pd) pd

/-- The `while notsorted_nodes:` loop of `DiGraph.sorting`, with fuel.
`none` means the loop did not finish within `fuel` iterations; since a
no-progress iteration repeats the same state forever, `none` for every
fuel is Python-level nontermination. -/
def sortingLoop (succs : GDict) : Nat → List String → GDict → Option (List String)
  | _, [], _ => some []
  | 0, _ :: _, _ => none
  | fuel + 1, n :: rest, pd =>
    match sortingLoop succs fuel (sortingPass (n :: rest) pd).2
        (dropEntries succs (sortingPass (n :: rest) pd).1 pd) with
    | some out => some ((sortingPass (n :: rest) pd).1 ++ out)
    | none => none

/-- `DiGraph.sorting(presorted)`.  An empty `presorted` list is falsy in
Python, hence treated exactly like the `None` default: the sort starts from
`self.nodes`.  The preamble removes every in-flight node's successor
entries from the working copy of `predecessors`.  The fuel
`notsorted.length` suffices whenever the loop terminates at all (each
productive iteration strictly shrinks the remainder). -/
def DiGraph.sortingRes (g : DiGraph) (presorted : List String) :
    Option (List String) :=
  let notsorted := if presorted.isEmpty then g.nodes else presorted
  let pd := dropEntries g.successors g.nodeWip g.predecessors
  sortingLoop g.successors notsorted.length notsorted pd

/-- `DiGraph.sorting` as a state update (it stores the result in
`self._sorted_nodes`). -/
def DiGraph.runSorting (g : DiGraph) (presorted : List String) :
    Option DiGraph :=
  (g.sortingRes presorted).map (fun l => { g with sortedNodes := some l })

/-- Reading the `sorted_nodes` property on a freshly built graph
(`_sorted_nodes is None` triggers an unseeded `self.sorting()`). -/
def sortFirst (g : DiGraph) : Except GErr DiGraph :=
  match g.runSorting [] with
  | some g' => .ok g'
  | none => .error .hang

/-! ## Incremental mutation (`add_nodes`, `add_edges`) -/

/-- `DiGraph.add_nodes(new_nodes)`: extend `self.nodes` (the setter rejects
repeated elements over the combined list), give each new node empty
adjacency entries, and, if the graph was sorted, resort seeded with the
previous sorted order followed by the new nodes. -/
def DiGraph.addNodes (g : DiGraph) (new : List String) : Except GErr DiGraph :=
  if (g.nodes ++ new).Nodup then
    let g1 : DiGraph :=
      { g with nodes := g.nodes ++ new,
               predecessors := new.foldl (fun d n => dictSet d n []) g.predecessors,
               successors := new.foldl (fun d n => dictSet d n []) g.successors }
    match g1.sortedNodes with
    | none => .ok g1
    | some s =>
      match g1.runSorting (s ++ new) with
      | some g2 => .ok g2
      | none => .error .hang
  else .error .repeatedNodes

/-- `DiGraph.add_edges(new_edges)`: the edges setter revalidates the whole
combined edge list against the current node set, both adjacency maps gain
the new entries, and, if the graph was sorted, resort seeded with the
previous sorted order. -/
def DiGraph.addEdges (g : DiGraph) (new : List (String × String)) :
    Except GErr DiGraph :=
  if (g.edges ++ new).all
      (fun e => decide (e.1 ∈ g.nodes) && decide (e.2 ∈ g.nodes)) then
    let ps := connFold new (g.predecessors, g.successors).1 (g.predecessors, g.successors).2
    let g1 : DiGraph :=
      { g with edges := g.edges ++ new, predecessors := ps.1, successors := ps.2 }
    match g1.sortedNodes with
    | none => .ok g1
    | some s =>
      match g1.runSorting (s ++ []) with
      | some g2 => .ok g2
      | none => .error .hang
  else .error .invalidEdge

/-- Incremental construction: build a graph, read its sorted order, then
`add_nodes` the new nodes and `add_edges` the new edges, each resorting
from the previous sorted order (as the methods do). -/
def incrementalBuild (ns0 : List String) (es0 : List (String × String))
    (new : List String) (es1 : List (String × String)) :
    Except GErr DiGraph := do
  let g0 ← construct ns0 es0
  let g0s ← sortFirst g0
  let g1 ← g0s.addNodes new
  g1.addEdges es1

/-- From-scratch construction: build the final graph and sort it once. -/
def scratchBuild (ns : List String) (es : List (String × String)) :
    Except GErr DiGraph := do
  let g ← construct ns es
  sortFirst g

/-! ## Two-phase removal (`remove_nodes`, `remove_nodes_connections`,
`remove_previous_connections`, `remove_successors_nodes`) -/

/-- The sorted-list maintenance at the end of `DiGraph.remove_nodes`.
`hasattr(self, "sorted_nodes")` evaluates the property, which performs an
unseeded sort first when `_sorted_nodes is None`.  If the removed nodes are
exactly the prefix of the sorted list it is stripped in place; otherwise
they are `list.remove`d from it and the graph is resorted seeded with the
remainder. -/
def removeNodesSortedFix (g : DiGraph) (nds : List String) :
    Except GErr DiGraph :=
  let s? : Except GErr (List String) :=
    match g.sortedNodes with
    | some s => .ok s
    | none =>
      match g.sortingRes [] with
      | some s => .ok s
      | none => .error .hang
  match s? with
  | .error e => .error e
  | .ok s =>
    if nds = s.take nds.length then
      .ok { g with sortedNodes := some (s.drop nds.length) }
    else
      let s' := nds.foldl (fun acc nd => acc.erase nd) s
      match g.sortingRes s' with
      | some out => .ok { g with sortedNodes := some out }
      | none => .error .hang

/-- `DiGraph.remove_nodes(nodes, check_ready)`: each target must be a graph
member; with `check_ready` a target with outstanding predecessors raises;
targets move from `self.nodes` to `self._node_wip`; then the sorted list is
maintained. -/
def DiGraph.removeNodes (g : DiGraph) (nds : List String) (checkReady : Bool) :
    Except GErr DiGraph := do
  let g1 ← nds.foldlM
    (fun (g : DiGraph) nd =>
      if nd ∈ g.nodes then
        if dictGet g.predecessors nd ≠ [] ∧ checkReady then
          .error .notReady
        else
          .ok { g with nodes := g.nodes.erase nd, nodeWip := g.nodeWip ++ [nd] }
      else .error (.notInGraph : GErr))
    g
  removeNodesSortedFix g1 nds

/-- `DiGraph.remove_nodes_connections(nodes)`: detach each node's outgoing
edges, pop both of its adjacency entries, and prune it from `_node_wip`. -/
def DiGraph.removeNodesConnections (g : DiGraph) (nds : List String) : DiGraph :=
  nds.foldl
    (fun g nd =>
      let g' := (dictGet g.successors nd).foldl
        (fun (g : DiGraph) v =>
          { g with predecessors := dictSet g.predecessors v ((dictGet g.predecessors v).erase nd),
                   edges := g.edges.erase (nd, v) })
        g
      { g' with successors := dictPop g'.successors nd,
                predecessors := dictPop g'.predecessors nd,
                nodeWip := g'.nodeWip.erase nd })
    g

/-- `DiGraph.remove_previous_connections(nodes)`: detach each node's
incoming edges (the successor-map update is guarded by key presence), pop
both adjacency entries, and prune it from `_node_wip`. -/
def DiGraph.removePreviousConnections (g : DiGraph) (nds : List String) : DiGraph :=
  nds.foldl
    (fun g nd =>
      let g' := (dictGet g.predecessors nd).foldl
        (fun (g : DiGraph) u =>
          { g with successors := if dictHas g.successors u then
                     dictSet g.successors u ((dictGet g.successors u).erase nd)
                   else g.successors,
                   edges := g.edges.erase (u, nd) })
        g
      { g' with successors := dictPop g'.successors nd,
                predecessors := dictPop g'.predecessors nd,
                nodeWip := g'.nodeWip.erase nd })
    g

/-- `DiGraph._checking_successors_nodes(node)`: depth-first append of every
transitive successor (no visited set, one occurrence per path), with fuel
bounding the recursion depth; any acyclic reachable state is fully explored
with fuel `g.nodes.length + 1`. -/
def checkingSuccessors (succs : GDict) : Nat → String → List String
  | 0, _ => []
  | fuel + 1, node =>
    (dictGet succs node).foldl
      (fun acc nd => acc ++ [nd] ++ checkingSuccessors succs fuel nd) []

/-- `DiGraph.remove_successors_nodes(node)`: collect the transitive
successors, detach `node`'s outgoing connections, then remove (bypassing
the readiness check) and detach every collected successor still active,
returning the removed names in collection order (Python returns them as a
set). -/
def DiGraph.removeSuccessorsNodes (g : DiGraph) (node : String) :
    Except GErr (DiGraph × List String) := do
  let succAll := checkingSuccessors g.successors (g.nodes.length + 1) node
  let g1 := g.removeNodesConnections [node]
  let mut st := (g1, ([] : List String))
  for nd in succAll do
    if nd ∈ st.1.nodes then
      let g2 ← st.1.removeNodes [nd] false
      let g3 := g2.removePreviousConnections [nd]
      st := (g3, st.2 ++ [nd])
  return st

/-! ## Lazy fields (`specs.py`: `LazyInterface`, `LazyField`, `Split`) -/

/-- The Python type expressions the promise machinery manipulates:
a base class, `ty.Any`, `ty.List[t]`, and the `Split[t]` marker. -/
inductive PType where
  | base : String → PType
  | any : PType
  | list : PType → PType
  | split : PType → PType
deriving DecidableEq, Repr

/-- A splitter entry of a task's `_splits` set: either a plain field name or
a composite (tuple) splitter over several field names. -/
inductive Splitter where
  | field : String → Splitter
  | tup : List String → Splitter
deriving DecidableEq, Repr

/-- Modelled from the spec: `core.TaskBase._unwrap_splitter` is not under
`src/` (only its call site in `LazyInterface.__getattr__` is).  Per the
spec (§4.2), a combiner that does not match a top-level splitter directly
is searched for among the leaf field names a composite splitter expression
mentions; so unwrapping yields the leaf names of the splitter. -/
def unwrapSplitter : Splitter → List String
  | .field s => [s]
  | .tup l => l

/-- The owner task as seen by `LazyInterface.__getattr__`: its name, its
declared fields (name and type), its `_splits` set (a Python set of
splitters, modelled as a duplicate-free list) and its `_combines` set. -/
structure TaskNode where
  name : String
  fields : List (String × PType)
  splits : List Splitter
  combines : List String
deriving DecidableEq, Repr

/-- `LazyField`: `{name, field, attr_type, type, splits}`. -/
structure LazyField where
  name : String
  field : String
  attr_type : String
  type : PType
  splits : List Splitter
deriving DecidableEq, Repr

/-- One combiner step of the loop in `LazyInterface.__getattr__`:
`splits.remove(combiner)`, falling back (on `KeyError`) to removing the
first splitter whose unwrapped leaves mention the combiner; `none` when
`next` finds nothing (Python escapes with `StopIteration`). -/
def removeCombiner (splits : List Splitter) (c : String) :
    Option (List Splitter) :=
  if Splitter.field c ∈ splits then some (splits.erase (.field c))
  else
    match splits.find? (fun s => decide (c ∈ unwrapSplitter s)) with
    | some s => some (splits.erase s)
    | none => none

/-- `for combiner in combines: ...` over the whole `_combines` set. -/
def applyCombiners (splits : List Splitter) : List String → Option (List Splitter)
  | [] => some splits
  | c :: cs =>
    match removeCombiner splits c with
    | some s' => applyCombiners s' cs
    | none => none

/-- Field-name lookup in an association list (Python attribute access on the
declared fields). -/
def findVal {α : Type} : List (String × α) → String → Option α
  | [], _ => none
  | p :: ps, k => if p.1 = k then some p.2 else findVal ps k

/-- `LazyInterface.__getattr__(name)`: look the field up, run the combiner
loop over the owner's `_splits` set — which it MUTATES IN PLACE (the set
object is shared with the task, not copied), wrap the declared type in one
plain-list level when `_combines` is nonempty and one `Split` level when
open splitters remain, and build the `LazyField`.  The returned `TaskNode`
is the owner with its mutated `_splits`; `none` models the `AttributeError`
on an unknown field and the uncaught `KeyError`/`StopIteration` when a
combiner matches no splitter. -/
def lazyGetattr (node : TaskNode) (attrType : String) (fname : String) :
    Option (LazyField × TaskNode) :=
  match findVal node.fields fname with
  | none => none
  | some ty =>
    match applyCombiners node.splits node.combines with
    | none => none
    | some splits' =>
      let t1 := if node.combines.isEmpty then ty else .list ty
      let t2 := if splits'.isEmpty then t1 else .split t1
      some ({ name := node.name, field := fname, attr_type := attrType,
              type := t2, splits := splits' },
            { node with splits := splits' })

/-- `LazyField.cast(new_type)`: rebuild the lazy field passing `name`,
`field`, `attr_type` and the new `type` — and nothing else, so `splits`
takes the attrs default, the empty set. -/
def LazyField.cast (lf : LazyField) (newType : PType) : LazyField :=
  { name := lf.name, field := lf.field, attr_type := lf.attr_type,
    type := newType, splits := [] }

/-! ## Resolution (`LazyField.get_value`) -/

/-- Concrete runtime values: a base value, a plain list, or a `Split`
container (a list subclass used as a replica marker). -/
inductive Value where
  | base : Nat → Value
  | vlist : List Value → Value
  | vsplit : List Value → Value

/-- `Result`: the published output mapping and the `errored` flag
(`runtime` stats carry no information the claims touch). -/
structure TaskResult where
  output : List (String × Value)
  errored : Bool

/-- What `node.result(state_index)` returns: a single `Result` or an
arbitrarily nested list of them (one leaf per replica). -/
inductive ResTree where
  | leaf : TaskResult → ResTree
  | branch : List ResTree → ResTree

/-- A node as seen by output resolution: `getattr(wf, name)` plus
`node.result(state_index)` (`none` models an absent result). -/
structure WNode where
  name : String
  result : Option Nat → Option ResTree

/-- The workflow a lazy field is resolved against: its own declared inputs,
the `pre_split` flag, and its member nodes. -/
structure Workflow where
  inputs : List (String × Value)
  preSplit : Bool
  nodes : List (String × WNode)

/-- A sequence-constructor tag: `Split` or plain `list`. -/
inductive SeqKind where
  | split : SeqKind
  | list : SeqKind
deriving DecidableEq, Repr

/-- Modelled from the spec: `TypeParser.nested_sequence_types`
(`pydra/utils/typing.py`) is not under `src/`.  Per the spec (§4.2), the
declared type is peeled into its chain of nested sequence constructors
(`Split` or plain list), outermost first. -/
def nestedSeqTypes : PType → List SeqKind
  | .split t => .split :: nestedSeqTypes t
  | .list t => .list :: nestedSeqTypes t
  | _ => []

/-- Modelled from the spec: the `only_splits=True` variant counts only the
leading `Split` constructors. -/
def nestedSplits : PType → Nat
  | .split t => nestedSplits t + 1
  | _ => 0

/-- Errors raised during resolution.  Python raises `ValueError` both for
the errored-origin case ("Cannot retrieve value for {field} from {name} as
the node errored" — the spec's UpstreamFailure, carrying the origin node
and field here) and for the nesting disagreement (the spec's
TypeMismatch). -/
inductive RErr where
  | attributeError : RErr
  | upstreamFailure : String → String → RErr
  | typeMismatch : RErr
  | typeError : RErr
deriving DecidableEq, Repr

/-- Sequence a list of fallible results, failing on the first error. -/
def seqList : List (Except RErr Value) → Except RErr (List Value)
  | [] => .ok []
  | x :: xs => do
    let v ← x
    let vs ← seqList xs
    .ok (v :: vs)

/-- `apply_splits(obj, depth)` from the input branch of `get_value`:
recursively rewrap `depth` levels of the value in `Split` containers
(iterating a non-sequence raises `TypeError` in Python). -/
def applySplits : Nat → Value → Except RErr Value
  | 0, v => .ok v
  | d + 1, v =>
    match v with
    | .base _ => .error .typeError
    | .vlist xs => Value.vsplit <$> seqList (xs.map (fun x => applySplits d x))
    | .vsplit xs => Value.vsplit <$> seqList (xs.map (fun x => applySplits d x))

/-- `get_nested_results(res, nested_seqs)` from the output branch of
`get_value`: on a list, one declared sequence level is consumed (still
having observed nesting with no declared level left raises the spec's
TypeMismatch) and the members are resolved recursively; on a single
`Result`, an errored origin raises the spec's UpstreamFailure — before any
output is touched — and otherwise the named field is extracted (the `all_`
whole-mapping case is not needed by the claims and is omitted), wrapped in
a `Split` container when the declared nesting is exactly `[Split]`
(`Split(val)` iterates `val`, so a non-sequence raises `TypeError`). -/
def getNested (lf : LazyField) (nseqs : List SeqKind) : ResTree → Except RErr Value
  | .branch rs =>
    match nseqs with
    | [] => .error .typeMismatch
    | k :: rest =>
      (seqList (rs.attach.map (fun r => getNested lf rest r.1))).map
        (fun vs => match k with | .split => .vsplit vs | .list => .vlist vs)
  | .leaf r =>
    if r.errored then .error (.upstreamFailure lf.name lf.field)
    else
      match findVal r.output lf.field with
      | none => .error .attributeError
      | some v =>
        if nseqs = [SeqKind.split] then
          match v with
          | .vlist xs => .ok (.vsplit xs)
          | .vsplit xs => .ok (.vsplit xs)
          | .base _ => .error .typeError
        else .ok v

/-- `LazyField.get_value(wf, state_index)`: the input direction reads the
workflow's own bound input and, unless the workflow is in `pre_split` mode,
rewraps it in one `Split` level per leading `Split` of the declared type;
the output direction locates the producing node, fetches its result for the
state index (an absent result makes Python fail on `res.errored`), and
extracts through the declared nesting. -/
def LazyField.getValue (lf : LazyField) (wf : Workflow) (stateIndex : Option Nat) :
    Except RErr Value :=
  if lf.attr_type = "input" then
    match findVal wf.inputs lf.field with
    | none => .error .attributeError
    | some v =>
      if (match lf.type with | .split _ => true | _ => false) && !wf.preSplit then
        applySplits (nestedSplits lf.type) v
      else .ok v
  else if lf.attr_type = "output" then
    match findVal wf.nodes lf.name with
    | none => .error .attributeError
    | some node =>
      match node.result stateIndex with
      | none => .error .attributeError
      | some tree => getNested lf (nestedSeqTypes lf.type) tree
  else .error .attributeError

/-! ## Spec fingerprint (`BaseSpec.hash`) -/

/-- One declared attrs field of a spec: its name, its value (`none` models
`attr.NOTHING`, an unset field), and the metadata the hash consults:
whether `output_file_template` is set (truthy) and whether the
`container_path` key is present.  Field values are abstract tokens. -/
structure SpecField where
  name : String
  value : Option Nat
  outputFileTemplate : Bool
  containerPath : Bool
deriving DecidableEq, Repr

/-- A spec instance: its declared fields in class order, and the
`_graph_checksums` attribute when present (a composite/sub-workflow). -/
structure Spec where
  fields : List SpecField
  graphChecksums : Option Nat
deriving DecidableEq, Repr

/-- The three names `attr_fields` is told to skip in `BaseSpec.hash`. -/
def hashExcludedNames : List String :=
  ["_graph_checksums", "bindings", "files_hash"]

/-- `inp_dict` as built by `BaseSpec.hash`: every declared field except the
excluded bookkeeping names, fields with a truthy `output_file_template`,
unset fields, and fields with a `container_path` key. -/
def includedDict (s : Spec) : List (String × Nat) :=
  s.fields.foldr
    (fun f acc =>
      if f.name ∈ hashExcludedNames then acc
      else if f.outputFileTemplate then acc
      else
        match f.value with
        | none => acc
        | some v => if f.containerPath then acc else (f.name, v) :: acc)
    []

/-- The inputs fed to the external `hash_function` primitive: either the
field dictionary, or (for a composite spec) the pair of the field hash and
the nested `_graph_checksums`. -/
inductive HashInput where
  | dict : List (String × Nat) → HashInput
  | pair : Nat → Nat → HashInput
deriving DecidableEq, Repr

/-- Modelled from the spec: `hash_function` (`pydra/utils/hash.py`) is not
under `src/`; the spec treats it as an external deterministic fingerprint
primitive for which "equal fingerprints imply equal observable inputs"
(§4.3), i.e. an injective function, so it is a parameter here.
`BaseSpec.hash` hashes `inp_dict` and, when `_graph_checksums` is present,
rehashes the pair of that hash and the checksums. -/
def specHash (h : HashInput → Nat) (s : Spec) : Nat :=
  let inpHash := h (.dict (includedDict s))
  match s.graphChecksums with
  | some gc => h (.pair inpHash gc)
  | none => inpHash

/-! ## Proof-side definitions -/

/-- The edge relation induced by an edge list. -/
def edgeRel (edges : List (String × String)) (u v : String) : Prop :=
  (u, v) ∈ edges

/-- An edge set is acyclic when no node has a nonempty directed path back
to itself. -/
def Acyclic (edges : List (String × String)) : Prop :=
  ∀ n, ¬ Relation.TransGen (edgeRel edges) n n

/-- The loop invariant of the Kahn-style layered sort: the remaining nodes
are duplicate-free; every remaining predecessor entry comes from a
remaining node along a real edge; entry multiplicities are bounded by the
(constant) successor map; and every edge between remaining nodes is still
recorded. -/
structure KInv (edges : List (String × String)) (succs : GDict)
    (ns : List String) (pd : GDict) : Prop where
  nodup : ns.Nodup
  entries : ∀ v ∈ ns, ∀ u, 0 < (dictGet pd v).count u → u ∈ ns ∧ (u, v) ∈ edges
  bounded : ∀ v ∈ ns, ∀ u, (dictGet pd v).count u ≤ (dictGet succs u).count v
  complete : ∀ v ∈ ns, ∀ u ∈ ns, (u, v) ∈ edges → 0 < (dictGet pd v).count u

/-- An injective pairing on `Nat` (Cantor pairing from Mathlib). -/
def encPair (a b : Nat) : Nat := Nat.pair a b

/-- An injective encoding of lists of naturals. -/
def encList : List Nat → Nat
  | [] => 0
  | a :: l => encPair a (encList l) + 1

/-- An injective encoding of strings (via their character codes). -/
def strCode (s : String) : Nat :=
  encList (s.data.map Char.toNat)

/-- A concrete injective hash primitive, used to instantiate the abstract
`hash_function` parameter in witnesses. -/
def encodeHash : HashInput → Nat
  | .dict d => encPair 0 (encList (d.map (fun p => encPair (strCode p.1) p.2)))
  | .pair a b => encPair 1 (encPair a b)

/-! ## Basic dictionary lemmas -/

@[simp]
theorem dictGet_nil (k : String) : dictGet [] k = [] := rfl

@[simp]
theorem dictGet_cons (p : String × List String) (ps : GDict) (k : String) :
    dictGet (p :: ps) k = if p.1 = k then p.2 else dictGet ps k := rfl

theorem dictGet_dictSet_self (d : GDict) (k : String) (v : List String) :
    dictGet (dictSet d k v) k = v := by
  induction d with
  | nil => simp [dictSet]
  | cons p ps ih =>
    by_cases h : p.1 = k
    · simp [dictSet, h]
    · simp [dictSet, h, ih]

theorem dictGet_dictSet_ne (d : GDict) (k k' : String) (v : List String)
    (h : k ≠ k') : dictGet (dictSet d k v) k' = dictGet d k' := by
  induction d with
  | nil => simp [dictSet, h]
  | cons p ps ih =>
    by_cases hp : p.1 = k
    · simp [dictSet, hp, h]
    · simp [dictSet, hp, ih]

theorem dictGet_dictSet (d : GDict) (k k' : String) (v : List String) :
    dictGet (dictSet d k v) k' = if k = k' then v else dictGet d k' := by
  by_cases h : k = k'
  · subst h; simp [dictGet_dictSet_self]
  · simp [h, dictGet_dictSet_ne d k k' v h]

theorem dictGet_initDict (nodes : List String) (k : String) :
    dictGet (initDict nodes) k = [] := by
  induction nodes with
  | nil => rfl
  | cons n ns ih => by_cases h : n = k <;> simp [initDict, dictGet, h, ih] at *

/-! ## Counting predecessor entries -/

/-- Erasing `u`-entries for one extracted node: the count of `u` in the
`v`-bucket drops by the number of `v`-occurrences in the processed list,
all other counts are untouched. -/
theorem count_dropNodeEntries (u : String) (vs : List String) (pd : GDict)
    (w x : String) :
    ((dictGet (dropNodeEntries u vs pd) x).count w) =
      (dictGet pd x).count w - (if w = u then vs.count x else 0) := by
  induction vs generalizing pd with
  | nil => simp [dropNodeEntries]
  | cons v vs ih =>
    have step :
        dropNodeEntries u (v :: vs) pd =
          dropNodeEntries u vs (dictSet pd v ((dictGet pd v).erase u)) := rfl
    rw [step, ih]
    rw [dictGet_dictSet]
    by_cases hxv : v = x
    · subst hxv
      rw [if_pos rfl]
      by_cases hwu : w = u
      · subst hwu
        rw [List.count_erase_self, List.count_cons_self, if_pos rfl, if_pos rfl]
        omega
      · rw [List.count_erase_of_ne hwu, if_neg hwu, if_neg hwu]
    · rw [if_neg hxv]
      have hxv' : x ≠ v := fun h => hxv h.symm
      rw [List.count_cons_of_ne hxv']

/-- Nodes not among the processed ones keep all their entry counts. -/
theorem count_dropEntries_not_mem (succs : GDict) (us : List String)
    (pd : GDict) (w x : String) (hw : w ∉ us) :
    (dictGet (dropEntries succs us pd) x).count w = (dictGet pd x).count w := by
  induction us generalizing pd with
  | nil => simp [dropEntries]
  | cons u us ih =>
    have step :
        dropEntries succs (u :: us) pd =
          dropEntries succs us (dropNodeEntries u (dictGet succs u) pd) := rfl
    rw [step, ih _ (fun h => hw (List.mem_cons_of_mem _ h))]
    rw [count_dropNodeEntries]
    have hwu : w ≠ u := fun h => hw (h ▸ List.mem_cons_self u us)
    rw [if_neg hwu]
    omega

/-- A processed node (processed exactly once) has its entry count reduced
by the number of occurrences of the bucket in its successor list. -/
theorem count_dropEntries_mem (succs : GDict) (us : List String)
    (pd : GDict) (w x : String) (hnd : us.Nodup) (hw : w ∈ us) :
    (dictGet (dropEntries succs us pd) x).count w =
      (dictGet pd x).count w - (dictGet succs w).count x := by
  induction us generalizing pd with
  | nil => simp at hw
  | cons u us ih =>
    have step :
        dropEntries succs (u :: us) pd =
          dropEntries succs us (dropNodeEntries u (dictGet succs u) pd) := rfl
    rw [step]
    rcases List.mem_cons.mp hw with h | h
    · subst h
      have hnotin : w ∉ us := (List.nodup_cons.mp hnd).1
      rw [count_dropEntries_not_mem succs us _ w x hnotin,
        count_dropNodeEntries]
      simp
    · have hwu : w ≠ u := by
        rintro rfl; exact (List.nodup_cons.mp hnd).1 h
      rw [ih _ (List.nodup_cons.mp hnd).2 h, count_dropNodeEntries]
      simp [hwu]

/-! ## The layer pass -/

theorem sortingPass_foldl (ns : List String) (pd : GDict)
    (acc1 acc2 : List String) :
    ns.foldl
      (fun acc nd =>
        if (dictGet pd nd).isEmpty then (acc.1 ++ [nd], acc.2)
        else (acc.1, acc.2 ++ [nd]))
      (acc1, acc2) =
      (acc1 ++ ns.filter (fun n => (dictGet pd n).isEmpty),
       acc2 ++ ns.filter (fun n => !(dictGet pd n).isEmpty)) := by
  induction ns generalizing acc1 acc2 with
  | nil => simp
  | cons n ns ih =>
    rw [List.foldl_cons]
    by_cases h : (dictGet pd n).isEmpty
    · rw [if_pos h, ih]
      simp [List.filter_cons, h]
    · rw [if_neg h, ih]
      simp [List.filter_cons, h]

/-- `DiGraph._sorting` keeps the ready nodes and the blocked nodes, in
order. -/
theorem sortingPass_eq (ns : List String) (pd : GDict) :
    sortingPass ns pd =
      (ns.filter (fun n => (dictGet pd n).isEmpty),
       ns.filter (fun n => !(dictGet pd n).isEmpty)) := by
  unfold sortingPass
  simpa using sortingPass_foldl ns pd [] []

@[simp]
theorem dropEntries_nil (succs : GDict) (pd : GDict) :
    dropEntries succs [] pd = pd := rfl

/-- Once an iteration of the sorting loop extracts an empty layer from a
nonempty remainder, the state repeats and the loop never terminates,
whatever the fuel. -/
theorem sortingLoop_stall (succs : GDict) (pd : GDict) (ns : List String)
    (hne : ns ≠ []) (hall : ∀ n ∈ ns, ¬(dictGet pd n).isEmpty = true) :
    ∀ fuel, sortingLoop succs fuel ns pd = none := by
  intro fuel
  induction fuel with
  | zero =>
    cases ns with
    | nil => exact absurd rfl hne
    | cons n rest => rfl
  | succ fuel ih =>
    cases ns with
    | nil => exact absurd rfl hne
    | cons n rest =>
      have h1 : (n :: rest).filter (fun m => (dictGet pd m).isEmpty) = [] := by
        rw [List.filter_eq_nil_iff]
        intro a ha
        exact hall a ha
      have h2 : (n :: rest).filter (fun m => !(dictGet pd m).isEmpty) = n :: rest := by
        rw [List.filter_eq_self]
        intro a ha
        simp [hall a ha]
      have hpass : sortingPass (n :: rest) pd = ([], n :: rest) := by
        rw [sortingPass_eq, h1, h2]
      show (match sortingLoop succs fuel (sortingPass (n :: rest) pd).2
          (dropEntries succs (sortingPass (n :: rest) pd).1 pd) with
        | some out => some ((sortingPass (n :: rest) pd).1 ++ out)
        | none => none) = none
      rw [hpass]
      simp only [dropEntries_nil]
      rw [ih]

/-! ## Acyclicity -/

/-- A strictly edge-increasing rank certifies acyclicity (used to discharge
`Acyclic` on concrete graphs). -/
theorem acyclic_of_rank (edges : List (String × String)) (r : String → Nat)
    (h : ∀ e ∈ edges, r e.1 < r e.2) : Acyclic edges := by
  intro n hcyc
  have mono : ∀ a b, Relation.TransGen (edgeRel edges) a b → r a < r b := by
    intro a b hab
    induction hab with
    | single h1 => exact h _ h1
    | tail _ h1 ih => exact lt_trans ih (h _ h1)
  exact lt_irrefl _ (mono n n hcyc)

/-- Acyclicity is inherited by edge subsets. -/
theorem acyclic_mono (e1 e2 : List (String × String))
    (hsub : ∀ x ∈ e1, x ∈ e2) (h : Acyclic e2) : Acyclic e1 := by
  intro n hcyc
  exact h n (hcyc.mono (fun a b hab => hsub _ hab))

/-- Pigeonhole: in a finite node list where every node has a predecessor
inside the list, the edge relation has a cycle. -/
theorem cycle_of_all_have_pred (E : String → String → Prop) (S : List String)
    (hne : S ≠ []) (h : ∀ v ∈ S, ∃ u ∈ S, E u v) :
    ∃ n, Relation.TransGen E n n := by
  obtain ⟨s0, hs0⟩ := List.exists_mem_of_ne_nil S hne
  have hch : ∀ v, ∃ u, v ∈ S → u ∈ S ∧ E u v := by
    intro v
    by_cases hv : v ∈ S
    · obtain ⟨u, huS, hE⟩ := h v hv
      exact ⟨u, fun _ => ⟨huS, hE⟩⟩
    · exact ⟨s0, fun hv' => absurd hv' hv⟩
  choose f hf using hch
  have hxS : ∀ n : Nat, f^[n] s0 ∈ S := by
    intro n
    induction n with
    | zero => simpa using hs0
    | succ n ihn =>
      rw [Function.iterate_succ_apply']
      exact (hf _ ihn).1
  have hxE : ∀ n : Nat, E (f^[n + 1] s0) (f^[n] s0) := by
    intro n
    rw [Function.iterate_succ_apply']
    exact (hf _ (hxS n)).2
  have hchain : ∀ j i : Nat, i < j →
      Relation.TransGen E (f^[j] s0) (f^[i] s0) := by
    intro j
    induction j with
    | zero => intro i hi; omega
    | succ j ihj =>
      intro i hi
      rcases Nat.lt_succ_iff_lt_or_eq.mp hi with h1 | h1
      · exact Relation.TransGen.head (hxE j) (ihj i h1)
      · subst h1
        exact Relation.TransGen.single (hxE i)
  obtain ⟨a, b, hab, heq⟩ := Fintype.exists_ne_map_eq_of_card_lt
    (fun i : Fin (S.length + 1) =>
      (⟨S.indexOf (f^[i.val] s0),
        List.indexOf_lt_length.mpr (hxS i.val)⟩ : Fin S.length))
    (by simp)
  have hfeq : f^[a.val] s0 = f^[b.val] s0 := by
    have hidx := congrArg Fin.val heq
    simp only at hidx
    exact (List.indexOf_inj (hxS a.val) (hxS b.val)).mp hidx
  have hvne : a.val ≠ b.val := fun hv => hab (Fin.ext hv)
  rcases Nat.lt_or_ge a.val b.val with hlt | hge
  · refine ⟨f^[a.val] s0, ?_⟩
    have h2 := hchain b.val a.val hlt
    rw [← hfeq] at h2
    exact h2
  · have hlt : b.val < a.val := lt_of_le_of_ne hge (Ne.symm hvne)
    refine ⟨f^[b.val] s0, ?_⟩
    have h2 := hchain a.val b.val hlt
    rw [hfeq] at h2
    exact h2

/-- Entry counts never increase under the removal loop. -/
theorem count_dropEntries_le (succs : GDict) (us : List String)
    (pd : GDict) (w x : String) :
    (dictGet (dropEntries succs us pd) x).count w ≤ (dictGet pd x).count w := by
  by_cases hw : w ∈ us
  · by_cases hnd : us.Nodup
    · rw [count_dropEntries_mem succs us pd w x hnd hw]; omega
    · -- general bound, by induction without the nodup hypothesis
      clear hw hnd
      induction us generalizing pd with
      | nil => simp [dropEntries]
      | cons u us ih =>
        have step :
            dropEntries succs (u :: us) pd =
              dropEntries succs us (dropNodeEntries u (dictGet succs u) pd) := rfl
        rw [step]
        exact le_trans (ih _) (by rw [count_dropNodeEntries]; omega)
  · rw [count_dropEntries_not_mem succs us pd w x hw]

/-! ## The Kahn invariant: progress and preservation -/

/-- If no remaining node is ready, every remaining node has a remaining
predecessor, which contradicts acyclicity: some node is always extracted. -/
theorem sorting_progress (edges : List (String × String)) (succs : GDict)
    (ns : List String) (pd : GDict) (hK : KInv edges succs ns pd)
    (hacy : Acyclic edges) (hne : ns ≠ []) :
    ns.filter (fun m => (dictGet pd m).isEmpty) ≠ [] := by
  intro hsp
  have hall : ∀ v ∈ ns, ∃ u ∈ ns, edgeRel edges u v := by
    intro v hv
    have hvne : ¬((dictGet pd v).isEmpty = true) := by
      intro hemp
      have hmem : v ∈ ns.filter (fun m => (dictGet pd m).isEmpty) :=
        List.mem_filter.mpr ⟨hv, hemp⟩
      rw [hsp] at hmem
      exact absurd hmem (List.not_mem_nil v)
    have hnn : dictGet pd v ≠ [] := by
      intro h0
      exact hvne (by simp [h0])
    obtain ⟨u, hu⟩ := List.exists_mem_of_ne_nil _ hnn
    have hcnt : 0 < (dictGet pd v).count u := List.count_pos_iff.mpr hu
    obtain ⟨huns, hedge⟩ := hK.entries v hv u hcnt
    exact ⟨u, huns, hedge⟩
  obtain ⟨c, hc⟩ := cycle_of_all_have_pred (edgeRel edges) ns hne hall
  exact hacy c hc

/-- One iteration of the sorting loop preserves the invariant on the
blocked remainder with the updated working map. -/
theorem kinv_step (edges : List (String × String)) (succs : GDict)
    (ns : List String) (pd : GDict) (hK : KInv edges succs ns pd) :
    KInv edges succs (ns.filter (fun m => !(dictGet pd m).isEmpty))
      (dropEntries succs (ns.filter (fun m => (dictGet pd m).isEmpty)) pd) := by
  set sp := ns.filter (fun m => (dictGet pd m).isEmpty) with hsp
  set rm := ns.filter (fun m => !(dictGet pd m).isEmpty) with hrm
  have hspnd : sp.Nodup := hK.nodup.filter _
  have hsp_mem : ∀ {x : String}, x ∈ ns → x ∉ sp → x ∈ rm := by
    intro x hx hnsp
    refine List.mem_filter.mpr ⟨hx, ?_⟩
    by_cases hxe : (dictGet pd x).isEmpty
    · exact absurd (List.mem_filter.mpr ⟨hx, hxe⟩) hnsp
    · simp [hxe]
  have hdisj : ∀ {x : String}, x ∈ rm → x ∉ sp := by
    intro x hx hxs
    have h1 := (List.mem_filter.mp hx).2
    have h2 := (List.mem_filter.mp hxs).2
    simp [h2] at h1
  refine ⟨hK.nodup.filter _, ?_, ?_, ?_⟩
  · intro v hv u hcnt
    have hvns : v ∈ ns := (List.mem_filter.mp hv).1
    have hcnt0 : 0 < (dictGet pd v).count u :=
      lt_of_lt_of_le hcnt (count_dropEntries_le succs sp pd u v)
    obtain ⟨huns, hedge⟩ := hK.entries v hvns u hcnt0
    refine ⟨?_, hedge⟩
    by_cases husp : u ∈ sp
    · exfalso
      have hz := count_dropEntries_mem succs sp pd u v hspnd husp
      have hb := hK.bounded v hvns u
      omega
    · exact hsp_mem huns husp
  · intro v hv u
    exact le_trans (count_dropEntries_le succs sp pd u v)
      (hK.bounded v (List.mem_filter.mp hv).1 u)
  · intro v hv u hu hedge
    have hvns : v ∈ ns := (List.mem_filter.mp hv).1
    have huns : u ∈ ns := (List.mem_filter.mp hu).1
    have husp : u ∉ sp := hdisj hu
    rw [count_dropEntries_not_mem succs sp pd u v husp]
    exact hK.complete v hvns u huns hedge

/-! ## The master theorem: the layered sort on an acyclic state -/

/-- On any state satisfying the invariant over an acyclic edge list, the
sorting loop (with fuel at least the number of remaining nodes, the fuel
`DiGraph.sortingRes` supplies) terminates with a permutation of the
remaining nodes in which every recorded edge goes forward. -/
theorem kahn_sorting (edges : List (String × String)) (succs : GDict) :
    ∀ (fuel : Nat) (ns : List String) (pd : GDict),
      KInv edges succs ns pd → Acyclic edges → ns.length ≤ fuel →
      ∃ out, sortingLoop succs fuel ns pd = some out ∧ out.Perm ns ∧
        ∀ u v, (u, v) ∈ edges → u ∈ ns → v ∈ ns →
          out.indexOf u < out.indexOf v := by
  intro fuel
  induction fuel with
  | zero =>
    intro ns pd hK hacy hlen
    cases ns with
    | nil =>
      exact ⟨[], rfl, List.Perm.refl _, by intro u v _ hu _; simp at hu⟩
    | cons n rest => simp at hlen
  | succ fuel ih =>
    intro ns pd hK hacy hlen
    cases ns with
    | nil =>
      exact ⟨[], rfl, List.Perm.refl _, by intro u v _ hu _; simp at hu⟩
    | cons n rest =>
      have hne : (n :: rest) ≠ [] := by simp
      have hprog := sorting_progress edges succs (n :: rest) pd hK hacy hne
      set sp := (n :: rest).filter (fun m => (dictGet pd m).isEmpty) with hsp
      set rm := (n :: rest).filter (fun m => !(dictGet pd m).isEmpty) with hrm
      have hpartition : (sp ++ rm).Perm (n :: rest) :=
        List.filter_append_perm _ _
      have hsplen : 1 ≤ sp.length := by
        cases hspc : sp with
        | nil => exact absurd hspc hprog
        | cons a l => simp
      have hlensum : sp.length + rm.length = (n :: rest).length := by
        have := hpartition.length_eq
        simpa using this
      have hrmlen : rm.length ≤ fuel := by
        have : (n :: rest).length ≤ fuel + 1 := hlen
        omega
      have hKstep := kinv_step edges succs (n :: rest) pd hK
      obtain ⟨out', hloop', hperm', htopo'⟩ :=
        ih rm (dropEntries succs sp pd) hKstep hacy hrmlen
      have hpass1 : (sortingPass (n :: rest) pd).1 = sp := by
        rw [sortingPass_eq]
      have hpass2 : (sortingPass (n :: rest) pd).2 = rm := by
        rw [sortingPass_eq]
      refine ⟨sp ++ out', ?_, ?_, ?_⟩
      · show (match sortingLoop succs fuel (sortingPass (n :: rest) pd).2
            (dropEntries succs (sortingPass (n :: rest) pd).1 pd) with
          | some out => some ((sortingPass (n :: rest) pd).1 ++ out)
          | none => none) = some (sp ++ out')
        rw [hpass1, hpass2, hloop']
      · exact (hperm'.append_left sp).trans hpartition
      · intro u v hedge hu hv
        have hvnsp : v ∉ sp := by
          intro hvsp
          have hemp := (List.mem_filter.mp hvsp).2
          have h0 : dictGet pd v = [] := by
            cases h : dictGet pd v with
            | nil => rfl
            | cons a l => rw [h] at hemp; simp at hemp
          have := hK.complete v hv u hu hedge
          rw [h0] at this
          simp at this
        have hvrm : v ∈ rm := by
          refine List.mem_filter.mpr ⟨hv, ?_⟩
          by_cases hemp : (dictGet pd v).isEmpty
          · exact absurd (List.mem_filter.mpr ⟨hv, hemp⟩) hvnsp
          · simp [hemp]
        have hvout : v ∈ out' := (hperm'.mem_iff).mpr hvrm
        by_cases husp : u ∈ sp
        · rw [List.indexOf_append_of_mem husp,
            List.indexOf_append_of_not_mem hvnsp]
          have h1 : sp.indexOf u < sp.length :=
            List.indexOf_lt_length.mpr husp
          omega
        · have hurm : u ∈ rm := by
            refine List.mem_filter.mpr ⟨hu, ?_⟩
            by_cases hemp : (dictGet pd u).isEmpty
            · exact absurd (List.mem_filter.mpr ⟨hu, hemp⟩) husp
            · simp [hemp]
          rw [List.indexOf_append_of_not_mem husp,
            List.indexOf_append_of_not_mem hvnsp]
          have := htopo' u v hedge hurm hvrm
          omega

/-! ## Counting entries of the derived adjacency maps -/

theorem connFold_fst_count (edges : List (String × String)) (pd sc : GDict)
    (u v : String) :
    (dictGet (connFold edges pd sc).1 v).count u =
      (dictGet pd v).count u + edges.count (u, v) := by
  induction edges generalizing pd sc with
  | nil => simp [connFold]
  | cons e es ih =>
    obtain ⟨a, b⟩ := e
    have step : connFold ((a, b) :: es) pd sc =
        connFold es (dictSet pd b (dictGet pd b ++ [a]))
          (dictSet sc a (dictGet sc a ++ [b])) := rfl
    rw [step, ih, dictGet_dictSet, List.count_cons]
    by_cases hv : b = v
    · subst hv
      rw [if_pos rfl, List.count_append]
      by_cases hu : a = u
      · subst hu
        simp
        omega
      · have hbeq : ((a, b) == (u, b)) = false := by
          simp [hu]
        rw [hbeq, List.count_singleton]
        simp [hu]
    · rw [if_neg hv]
      have : ((a, b) == (u, v)) = false := by
        simp [hv]
      rw [this]
      simp [Nat.add_assoc]

theorem connFold_snd_count (edges : List (String × String)) (pd sc : GDict)
    (u v : String) :
    (dictGet (connFold edges pd sc).2 u).count v =
      (dictGet sc u).count v + edges.count (u, v) := by
  induction edges generalizing pd sc with
  | nil => simp [connFold]
  | cons e es ih =>
    obtain ⟨a, b⟩ := e
    have step : connFold ((a, b) :: es) pd sc =
        connFold es (dictSet pd b (dictGet pd b ++ [a]))
          (dictSet sc a (dictGet sc a ++ [b])) := rfl
    rw [step, ih, dictGet_dictSet, List.count_cons]
    by_cases hu : a = u
    · subst hu
      rw [if_pos rfl, List.count_append]
      by_cases hv : b = v
      · subst hv
        simp
        omega
      · have hbeq : ((a, b) == (a, v)) = false := by
          simp [hv]
        rw [hbeq, List.count_singleton]
        simp [hv]
    · rw [if_neg hu]
      have : ((a, b) == (u, v)) = false := by
        simp [hu]
      rw [this]
      simp [Nat.add_assoc]

/-- Build the sorting invariant from count characterizations of the two
adjacency maps. -/
theorem kinv_of_counts (edges : List (String × String)) (succs : GDict)
    (ns : List String) (pd : GDict) (hnd : ns.Nodup)
    (hpd : ∀ v ∈ ns, ∀ u, (dictGet pd v).count u = edges.count (u, v))
    (hsc : ∀ u v, edges.count (u, v) ≤ (dictGet succs u).count v)
    (hedge : ∀ e ∈ edges, e.1 ∈ ns ∧ e.2 ∈ ns) :
    KInv edges succs ns pd := by
  refine ⟨hnd, ?_, ?_, ?_⟩
  · intro v hv u hcnt
    rw [hpd v hv u] at hcnt
    have hmem : (u, v) ∈ edges := List.count_pos_iff.mp hcnt
    exact ⟨(hedge _ hmem).1, hmem⟩
  · intro v hv u
    rw [hpd v hv u]
    exact hsc u v
  · intro v hv u hu hedge'
    rw [hpd v hv u]
    exact List.count_pos_iff.mpr hedge'

/-- The sorting invariant only inspects membership in the remaining list,
so it transports along permutations. -/
theorem kinv_perm (E : List (String × String)) (succs : GDict)
    (ns ns' : List String) (pd : GDict) (hperm : ns.Perm ns')
    (hK : KInv E succs ns pd) : KInv E succs ns' pd := by
  refine ⟨hperm.nodup_iff.mp hK.nodup, ?_, ?_, ?_⟩
  · intro v hv u hcnt
    obtain ⟨hu, he⟩ := hK.entries v (hperm.mem_iff.mpr hv) u hcnt
    exact ⟨hperm.mem_iff.mp hu, he⟩
  · intro v hv u
    exact hK.bounded v (hperm.mem_iff.mpr hv) u
  · intro v hv u hu he
    exact hK.complete v (hperm.mem_iff.mpr hv) u (hperm.mem_iff.mpr hu) he

/-- `DiGraph.sorting` on a graph with no in-flight nodes: package the
master theorem against a canonical permutation `base` of the list the sort
starts from. -/
theorem kahn_sortingRes (g : DiGraph) (ps : List String)
    (E : List (String × String)) (base : List String)
    (hbase : (if ps.isEmpty then g.nodes else ps).Perm base)
    (hK : KInv E g.successors base
      (dropEntries g.successors g.nodeWip g.predecessors))
    (hacy : Acyclic E) :
    ∃ out, g.sortingRes ps = some out ∧ out.Perm base ∧
      ∀ u v, (u, v) ∈ E → u ∈ base → v ∈ base →
        out.indexOf u < out.indexOf v := by
  have hK' : KInv E g.successors (if ps.isEmpty then g.nodes else ps)
      (dropEntries g.successors g.nodeWip g.predecessors) :=
    kinv_perm E g.successors base _ _ hbase.symm hK
  obtain ⟨out, h1, h2, h3⟩ :=
    kahn_sorting E g.successors (if ps.isEmpty then g.nodes else ps).length
      (if ps.isEmpty then g.nodes else ps)
      (dropEntries g.successors g.nodeWip g.predecessors) hK' hacy le_rfl
  refine ⟨out, ?_, h2.trans hbase, ?_⟩
  · unfold DiGraph.sortingRes
    exact h1
  · intro u v he hu hv
    exact h3 u v he (hbase.mem_iff.mpr hu) (hbase.mem_iff.mpr hv)

/-- The adjacency extension performed by `add_nodes`. -/
theorem dictGet_setEmptyFold (new : List String) (d : GDict) (v : String) :
    dictGet (new.foldl (fun d n => dictSet d n []) d) v =
      if v ∈ new then [] else dictGet d v := by
  induction new generalizing d with
  | nil => simp
  | cons n rest ih =>
    rw [List.foldl_cons, ih, dictGet_dictSet]
    by_cases h1 : v ∈ rest
    · simp [h1]
    · by_cases h2 : n = v
      · simp [h1, h2]
      · have hvn : ¬v = n := fun h => h2 h.symm
        have : ¬v ∈ n :: rest := by
          simp [h1, hvn]
        simp [h1, h2, this]

/-- What `construct` produces on success. -/
theorem construct_ok {nodes : List String} {edges : List (String × String)}
    {g : DiGraph} (h : construct nodes edges = .ok g) :
    g = { nodes := nodes, edges := edges,
          predecessors := (connFold edges (initDict nodes) (initDict nodes)).1,
          successors := (connFold edges (initDict nodes) (initDict nodes)).2,
          nodeWip := [], sortedNodes := none } ∧
      nodes.Nodup ∧ ∀ e ∈ edges, e.1 ∈ nodes ∧ e.2 ∈ nodes := by
  unfold construct at h
  by_cases h1 : nodes.Nodup
  · rw [if_pos h1] at h
    by_cases h2 : edges.all (fun e => decide (e.1 ∈ nodes) && decide (e.2 ∈ nodes))
    · rw [if_pos h2] at h
      refine ⟨(Except.ok.inj h).symm, h1, ?_⟩
      intro e he
      have h3 := List.all_eq_true.mp h2 e he
      simp at h3
      exact h3
    · rw [if_neg h2] at h
      cases h
  · rw [if_neg h1] at h
    cases h

/-! ## Claim theorems: the graph component -/

/-- **C1** (code_bug): the spec mandates that `Sort` fail with `CycleError`
when an iteration extracts an empty layer while nodes remain.  The code has
no such check: on the two-node cyclic edge set `{(a,b), (b,a)}` — which
passes edge validation — every iteration of the `while` loop extracts an
empty layer and leaves the state unchanged, so the loop never terminates,
whatever the fuel; in particular `DiGraph.sorting` never produces a result
and never raises anything. -/
theorem sorting_cyclic_loops_forever :
    construct ["a", "b"] [("a", "b"), ("b", "a")] =
      .ok ⟨["a", "b"], [("a", "b"), ("b", "a")],
        [("a", ["b"]), ("b", ["a"])], [("a", ["b"]), ("b", ["a"])], [], none⟩ ∧
    (∀ fuel, sortingLoop [("a", ["b"]), ("b", ["a"])] fuel ["a", "b"]
        [("a", ["b"]), ("b", ["a"])] = none) ∧
    DiGraph.sortingRes
      ⟨["a", "b"], [("a", "b"), ("b", "a")],
        [("a", ["b"]), ("b", ["a"])], [("a", ["b"]), ("b", ["a"])], [], none⟩
      [] = none := by
  have hstall := sortingLoop_stall [("a", ["b"]), ("b", ["a"])]
    [("a", ["b"]), ("b", ["a"])] ["a", "b"] (by simp) (by decide)
  exact ⟨rfl, hstall, hstall 2⟩

/-- **C3**: on every acyclic graph accepted by the constructor, the
unseeded `DiGraph.sorting` terminates with a permutation of the node list
in which the source of every edge appears strictly before its target. -/
theorem sorting_topological_order
    (nodes : List String) (edges : List (String × String)) (g : DiGraph)
    (hok : construct nodes edges = .ok g) (hacy : Acyclic edges) :
    ∃ out, g.sortingRes [] = some out ∧ out.Perm nodes ∧
      ∀ u v, (u, v) ∈ edges → out.indexOf u < out.indexOf v := by
  obtain ⟨hg, hnd, hval⟩ := construct_ok hok
  subst hg
  have hK : KInv edges (connFold edges (initDict nodes) (initDict nodes)).2
      nodes (connFold edges (initDict nodes) (initDict nodes)).1 := by
    apply kinv_of_counts _ _ _ _ hnd
    · intro v _ u
      rw [connFold_fst_count, dictGet_initDict]
      simp
    · intro u v
      rw [connFold_snd_count, dictGet_initDict]
      simp
    · exact hval
  obtain ⟨out, hloop, hperm, htopo⟩ :=
    kahn_sorting edges _ nodes.length nodes _ hK hacy le_rfl
  refine ⟨out, ?_, hperm, ?_⟩
  · simpa [DiGraph.sortingRes] using hloop
  · intro u v hedge
    exact htopo u v hedge (hval _ hedge).1 (hval _ hedge).2

/-- Witness for C3 on the chain `a → b → c`. -/
theorem sorting_topological_order_witness :
    ∃ out,
      DiGraph.sortingRes
        ⟨["a", "b", "c"], [("a", "b"), ("b", "c")],
          [("a", []), ("b", ["a"]), ("c", ["b"])],
          [("a", ["b"]), ("b", ["c"]), ("c", [])], [], none⟩ [] = some out ∧
      out.Perm ["a", "b", "c"] ∧
      ∀ u v, (u, v) ∈ [("a", "b"), ("b", "c")] →
        out.indexOf u < out.indexOf v :=
  sorting_topological_order ["a", "b", "c"] [("a", "b"), ("b", "c")]
    ⟨["a", "b", "c"], [("a", "b"), ("b", "c")],
      [("a", []), ("b", ["a"]), ("c", ["b"])],
      [("a", ["b"]), ("b", ["c"]), ("c", [])], [], none⟩
    rfl
    (acyclic_of_rank _
      (fun s => if s = "a" then 0 else if s = "b" then 1 else 2)
      (by decide))

/-- **C7**: building incrementally — `construct` then `add_nodes` of the
new nodes then `add_edges` of the new edges, each resorting from the
previous sorted order — succeeds on every acyclic final graph, and its
stored sorted order is a valid topological order of the final node and
edge sets; the from-scratch build of the final graph also succeeds and its
order is likewise a valid topological order of the same sets (the two
orders may differ only in the tie-break among incomparable nodes). -/
theorem incremental_build_topological
    (ns0 : List String) (es0 : List (String × String))
    (new : List String) (es1 : List (String × String))
    (hnd : (ns0 ++ new).Nodup)
    (hval0 : ∀ e ∈ es0, e.1 ∈ ns0 ∧ e.2 ∈ ns0)
    (hval1 : ∀ e ∈ es1, e.1 ∈ ns0 ++ new ∧ e.2 ∈ ns0 ++ new)
    (hacy : Acyclic (es0 ++ es1)) :
    (∃ gI sI, incrementalBuild ns0 es0 new es1 = .ok gI ∧
      gI.nodes = ns0 ++ new ∧ gI.edges = es0 ++ es1 ∧
      gI.sortedNodes = some sI ∧ sI.Perm (ns0 ++ new) ∧
      ∀ u v, (u, v) ∈ es0 ++ es1 → sI.indexOf u < sI.indexOf v) ∧
    (∃ gS sS, scratchBuild (ns0 ++ new) (es0 ++ es1) = .ok gS ∧
      gS.sortedNodes = some sS ∧ sS.Perm (ns0 ++ new) ∧
      ∀ u v, (u, v) ∈ es0 ++ es1 → sS.indexOf u < sS.indexOf v) := by
  have hnd0 : ns0.Nodup := (List.nodup_append.mp hnd).1
  have hdisj : ns0.Disjoint new := (List.nodup_append.mp hnd).2.2
  have hacy0 : Acyclic es0 :=
    acyclic_mono _ _ (fun x hx => List.mem_append_left _ hx) hacy
  -- the adjacency maps at each stage
  set pd0 := (connFold es0 (initDict ns0) (initDict ns0)).1 with hpd0def
  set sc0 := (connFold es0 (initDict ns0) (initDict ns0)).2 with hsc0def
  set pd1 := new.foldl (fun d n => dictSet d n []) pd0 with hpd1def
  set sc1 := new.foldl (fun d n => dictSet d n []) sc0 with hsc1def
  set pd2 := (connFold es1 pd1 sc1).1 with hpd2def
  set sc2 := (connFold es1 pd1 sc1).2 with hsc2def
  have hcount_pd0 : ∀ u v, (dictGet pd0 v).count u = es0.count (u, v) := by
    intro u v
    rw [hpd0def, connFold_fst_count, dictGet_initDict]
    simp
  have hcount_sc0 : ∀ u v, (dictGet sc0 u).count v = es0.count (u, v) := by
    intro u v
    rw [hsc0def, connFold_snd_count, dictGet_initDict]
    simp
  have hes0_tgt : ∀ u v, v ∈ new → es0.count (u, v) = 0 := by
    intro u v hv
    rw [List.count_eq_zero]
    intro hmem
    exact hdisj (hval0 _ hmem).2 hv
  have hes0_src : ∀ u v, u ∈ new → es0.count (u, v) = 0 := by
    intro u v hu
    rw [List.count_eq_zero]
    intro hmem
    exact hdisj (hval0 _ hmem).1 hu
  have hcount_pd1 : ∀ u v, (dictGet pd1 v).count u = es0.count (u, v) := by
    intro u v
    rw [hpd1def, dictGet_setEmptyFold]
    by_cases hv : v ∈ new
    · rw [if_pos hv, hes0_tgt u v hv]
      simp
    · rw [if_neg hv]
      exact hcount_pd0 u v
  have hcount_sc1 : ∀ u v, (dictGet sc1 u).count v = es0.count (u, v) := by
    intro u v
    rw [hsc1def, dictGet_setEmptyFold]
    by_cases hu : u ∈ new
    · rw [if_pos hu, hes0_src u v hu]
      simp
    · rw [if_neg hu]
      exact hcount_sc0 u v
  have hcount_pd2 : ∀ u v, (dictGet pd2 v).count u = (es0 ++ es1).count (u, v) := by
    intro u v
    rw [hpd2def, connFold_fst_count, hcount_pd1, List.count_append]
  have hcount_sc2 : ∀ u v, (dictGet sc2 u).count v = (es0 ++ es1).count (u, v) := by
    intro u v
    rw [hsc2def, connFold_snd_count, hcount_sc1, List.count_append]
  -- stage 0: construct and first sort
  have hall0 : es0.all (fun e => decide (e.1 ∈ ns0) && decide (e.2 ∈ ns0)) = true := by
    rw [List.all_eq_true]
    intro e he
    simp [(hval0 e he).1, (hval0 e he).2]
  have hcon0 : construct ns0 es0 = .ok ⟨ns0, es0, pd0, sc0, [], none⟩ := by
    unfold construct
    rw [if_pos hnd0, if_pos hall0]
  have hK0 : KInv es0 sc0 ns0 pd0 := by
    apply kinv_of_counts _ _ _ _ hnd0
    · intro v _ u
      exact hcount_pd0 u v
    · intro u v
      exact le_of_eq (hcount_sc0 u v).symm
    · exact hval0
  obtain ⟨s0, hs0res, hs0perm, _⟩ :=
    kahn_sortingRes ⟨ns0, es0, pd0, sc0, [], none⟩ [] es0 ns0
      (by simp) hK0 hacy0
  have hsf0 : sortFirst ⟨ns0, es0, pd0, sc0, [], none⟩ =
      .ok ⟨ns0, es0, pd0, sc0, [], some s0⟩ := by
    unfold sortFirst DiGraph.runSorting
    rw [hs0res]
    rfl
  -- stage 1: add_nodes with an incremental resort seeded by s0 ++ new
  have hK1 : KInv es0 sc1 (ns0 ++ new) pd1 := by
    apply kinv_of_counts _ _ _ _ hnd
    · intro v _ u
      exact hcount_pd1 u v
    · intro u v
      exact le_of_eq (hcount_sc1 u v).symm
    · intro e he
      exact ⟨List.mem_append_left _ (hval0 e he).1,
        List.mem_append_left _ (hval0 e he).2⟩
  have hbase1 : (if (s0 ++ new).isEmpty then ns0 ++ new else s0 ++ new).Perm
      (ns0 ++ new) := by
    by_cases h : (s0 ++ new).isEmpty
    · rw [if_pos h]
    · rw [if_neg h]
      exact hs0perm.append_right new
  obtain ⟨s1, hs1res, hs1perm, _⟩ :=
    kahn_sortingRes ⟨ns0 ++ new, es0, pd1, sc1, [], some s0⟩ (s0 ++ new) es0
      (ns0 ++ new) hbase1 hK1 hacy0
  have haddN : DiGraph.addNodes ⟨ns0, es0, pd0, sc0, [], some s0⟩ new =
      .ok ⟨ns0 ++ new, es0, pd1, sc1, [], some s1⟩ := by
    unfold DiGraph.addNodes
    rw [if_pos hnd]
    show (match DiGraph.runSorting ⟨ns0 ++ new, es0, pd1, sc1, [], some s0⟩
        (s0 ++ new) with
      | some g2 => Except.ok g2
      | none => Except.error GErr.hang) = _
    unfold DiGraph.runSorting
    rw [hs1res]
    rfl
  -- stage 2: add_edges with an incremental resort seeded by s1
  have hK2 : KInv (es0 ++ es1) sc2 (ns0 ++ new) pd2 := by
    apply kinv_of_counts _ _ _ _ hnd
    · intro v _ u
      exact hcount_pd2 u v
    · intro u v
      exact le_of_eq (hcount_sc2 u v).symm
    · intro e he
      rcases List.mem_append.mp he with h | h
      · exact ⟨List.mem_append_left _ (hval0 e h).1,
          List.mem_append_left _ (hval0 e h).2⟩
      · exact hval1 e h
  have hbase2 : (if (s1 ++ []).isEmpty then ns0 ++ new else s1 ++ []).Perm
      (ns0 ++ new) := by
    rw [List.append_nil]
    by_cases h : s1.isEmpty
    · rw [if_pos h]
    · rw [if_neg h]
      exact hs1perm
  obtain ⟨s2, hs2res, hs2perm, hs2topo⟩ :=
    kahn_sortingRes ⟨ns0 ++ new, es0 ++ es1, pd2, sc2, [], some s1⟩ (s1 ++ [])
      (es0 ++ es1) (ns0 ++ new) hbase2 hK2 hacy
  have hall2 : (es0 ++ es1).all
      (fun e => decide (e.1 ∈ ns0 ++ new) && decide (e.2 ∈ ns0 ++ new)) = true := by
    rw [List.all_eq_true]
    intro e he
    rcases List.mem_append.mp he with h | h
    · simp [List.mem_append_left _ (hval0 e h).1,
        List.mem_append_left _ (hval0 e h).2]
    · simp [(hval1 e h).1, (hval1 e h).2]
  have haddE : DiGraph.addEdges ⟨ns0 ++ new, es0, pd1, sc1, [], some s1⟩ es1 =
      .ok ⟨ns0 ++ new, es0 ++ es1, pd2, sc2, [], some s2⟩ := by
    unfold DiGraph.addEdges
    rw [if_pos hall2]
    show (match DiGraph.runSorting
        ⟨ns0 ++ new, es0 ++ es1, pd2, sc2, [], some s1⟩ (s1 ++ []) with
      | some g2 => Except.ok g2
      | none => Except.error GErr.hang) = _
    unfold DiGraph.runSorting
    rw [hs2res]
    rfl
  constructor
  · refine ⟨⟨ns0 ++ new, es0 ++ es1, pd2, sc2, [], some s2⟩, s2, ?_, rfl, rfl,
      rfl, hs2perm, ?_⟩
    · unfold incrementalBuild
      rw [hcon0]
      show (sortFirst ⟨ns0, es0, pd0, sc0, [], none⟩).bind _ = _
      rw [hsf0]
      show (DiGraph.addNodes ⟨ns0, es0, pd0, sc0, [], some s0⟩ new).bind _ = _
      rw [haddN]
      exact haddE
    · intro u v he
      have hu : u ∈ ns0 ++ new := by
        rcases List.mem_append.mp he with h | h
        · exact List.mem_append_left _ (hval0 _ h).1
        · exact (hval1 _ h).1
      have hv : v ∈ ns0 ++ new := by
        rcases List.mem_append.mp he with h | h
        · exact List.mem_append_left _ (hval0 _ h).2
        · exact (hval1 _ h).2
      exact hs2topo u v he hu hv
  · -- from-scratch build of the final graph
    set pdS := (connFold (es0 ++ es1) (initDict (ns0 ++ new))
      (initDict (ns0 ++ new))).1 with hpdSdef
    set scS := (connFold (es0 ++ es1) (initDict (ns0 ++ new))
      (initDict (ns0 ++ new))).2 with hscSdef
    have hedgeS : ∀ e ∈ es0 ++ es1, e.1 ∈ ns0 ++ new ∧ e.2 ∈ ns0 ++ new := by
      intro e he
      rcases List.mem_append.mp he with h | h
      · exact ⟨List.mem_append_left _ (hval0 e h).1,
          List.mem_append_left _ (hval0 e h).2⟩
      · exact hval1 e h
    have hconS : construct (ns0 ++ new) (es0 ++ es1) =
        .ok ⟨ns0 ++ new, es0 ++ es1, pdS, scS, [], none⟩ := by
      unfold construct
      rw [if_pos hnd, if_pos hall2]
    have hKS : KInv (es0 ++ es1) scS (ns0 ++ new) pdS := by
      apply kinv_of_counts _ _ _ _ hnd
      · intro v _ u
        rw [hpdSdef, connFold_fst_count, dictGet_initDict]
        simp
      · intro u v
        rw [hscSdef, connFold_snd_count, dictGet_initDict]
        simp
      · exact hedgeS
    obtain ⟨sS, hsSres, hsSperm, hsStopo⟩ :=
      kahn_sortingRes ⟨ns0 ++ new, es0 ++ es1, pdS, scS, [], none⟩ []
        (es0 ++ es1) (ns0 ++ new) (by simp) hKS hacy
    refine ⟨⟨ns0 ++ new, es0 ++ es1, pdS, scS, [], some sS⟩, sS, ?_, rfl,
      hsSperm, ?_⟩
    · unfold scratchBuild
      rw [hconS]
      show sortFirst ⟨ns0 ++ new, es0 ++ es1, pdS, scS, [], none⟩ = _
      unfold sortFirst DiGraph.runSorting
      rw [hsSres]
      rfl
    · intro u v he
      exact hsStopo u v he (hedgeS _ he).1 (hedgeS _ he).2

/-- Witness for C7: grow the edge `a → b` by a node `c` and an edge
`b → c`. -/
theorem incremental_build_topological_witness :
    (∃ gI sI,
      incrementalBuild ["a", "b"] [("a", "b")] ["c"] [("b", "c")] = .ok gI ∧
      gI.nodes = ["a", "b"] ++ ["c"] ∧ gI.edges = [("a", "b")] ++ [("b", "c")] ∧
      gI.sortedNodes = some sI ∧ sI.Perm (["a", "b"] ++ ["c"]) ∧
      ∀ u v, (u, v) ∈ [("a", "b")] ++ [("b", "c")] →
        sI.indexOf u < sI.indexOf v) ∧
    (∃ gS sS,
      scratchBuild (["a", "b"] ++ ["c"]) ([("a", "b")] ++ [("b", "c")]) = .ok gS ∧
      gS.sortedNodes = some sS ∧ sS.Perm (["a", "b"] ++ ["c"]) ∧
      ∀ u v, (u, v) ∈ [("a", "b")] ++ [("b", "c")] →
        sS.indexOf u < sS.indexOf v) :=
  incremental_build_topological ["a", "b"] [("a", "b")] ["c"] [("b", "c")]
    (by decide) (by decide) (by decide)
    (acyclic_of_rank _
      (fun s => if s = "a" then 0 else if s = "b" then 1 else 2)
      (by decide))

/-- The sorted-list maintenance of `remove_nodes` on an already-sorted
graph, with the property read resolved. -/
theorem removeNodesSortedFix_of_sorted (g : DiGraph) (nds s : List String)
    (h : g.sortedNodes = some s) :
    removeNodesSortedFix g nds =
      if nds = s.take nds.length then
        .ok { g with sortedNodes := some (s.drop nds.length) }
      else
        match g.sortingRes (nds.foldl (fun acc nd => acc.erase nd) s) with
        | some out => .ok { g with sortedNodes := some out }
        | none => .error .hang := by
  unfold removeNodesSortedFix
  rw [h]

/-- **C8**: on a well-formed, sorted, acyclic graph, `remove_nodes` of a
member node with `check_ready=true` fails with the not-ready error as soon
as the node still has predecessors, while with `check_ready=false` it
always succeeds, moving the node from the active node list into the
in-flight bucket. -/
theorem remove_nodes_ready_check
    (g : DiGraph) (s : List String) (nd : String)
    (hpd : g.predecessors =
      (connFold g.edges (initDict g.nodes) (initDict g.nodes)).1)
    (hsc : g.successors =
      (connFold g.edges (initDict g.nodes) (initDict g.nodes)).2)
    (hnd : g.nodes.Nodup)
    (hval : ∀ e ∈ g.edges, e.1 ∈ g.nodes ∧ e.2 ∈ g.nodes)
    (hacy : Acyclic g.edges)
    (hwip : g.nodeWip = [])
    (hsorted : g.sortedNodes = some s)
    (hsperm : s.Perm g.nodes)
    (hmem : nd ∈ g.nodes) :
    (dictGet g.predecessors nd ≠ [] →
      g.removeNodes [nd] true = .error .notReady) ∧
    (∃ g', g.removeNodes [nd] false = .ok g' ∧
      g'.nodes = g.nodes.erase nd ∧ g'.nodeWip = [nd] ∧ nd ∉ g'.nodes) := by
  have hcpd : ∀ u v, (dictGet g.predecessors v).count u = g.edges.count (u, v) := by
    intro u v
    rw [hpd, connFold_fst_count, dictGet_initDict]
    simp
  have hcsc : ∀ u v, (dictGet g.successors u).count v = g.edges.count (u, v) := by
    intro u v
    rw [hsc, connFold_snd_count, dictGet_initDict]
    simp
  have hsnd : s.Nodup := hsperm.nodup_iff.mpr hnd
  constructor
  · -- check_ready = true with outstanding predecessors
    intro hne
    unfold DiGraph.removeNodes
    simp only [List.foldlM, hmem, if_pos, hne]
    rw [if_pos ⟨hne, trivial⟩]
    rfl
  · -- check_ready = false always succeeds
    have hstep : DiGraph.removeNodes g [nd] false =
        removeNodesSortedFix
          { g with nodes := g.nodes.erase nd, nodeWip := g.nodeWip ++ [nd] }
          [nd] := by
      unfold DiGraph.removeNodes
      rw [List.foldlM]
      rw [if_pos hmem, if_neg (by simp)]
      rfl
    have hndmem : nd ∉ g.nodes.erase nd := by
      intro hin
      exact absurd rfl ((hnd.mem_erase_iff).mp hin).1
    rw [hstep]
    have hsorted' : ({ g with nodes := g.nodes.erase nd, nodeWip := g.nodeWip ++ [nd] } : DiGraph).sortedNodes = some s := hsorted
    rw [removeNodesSortedFix_of_sorted _ _ s hsorted']
    by_cases hpre : [nd] = s.take [nd].length
    · rw [if_pos hpre]
      exact ⟨_, rfl, rfl, by simp [hwip], hndmem⟩
    · rw [if_neg hpre]
      -- the resort seeded with the pruned sorted list succeeds
      have hK : KInv (g.edges.filter (fun e => !(e.1 == nd || e.2 == nd)))
          g.successors (s.erase nd)
          (dropEntries g.successors (g.nodeWip ++ [nd]) g.predecessors) := by
        rw [hwip]
        simp only [List.nil_append]
        apply kinv_of_counts
        · exact hsnd.erase nd
        · intro v hv u
          have hvfacts := (hsnd.mem_erase_iff).mp hv
          by_cases hu : u = nd
          · rw [count_dropEntries_mem g.successors [nd] g.predecessors u v
              (by simp) (by simp [hu])]
            rw [hcpd, hcsc, Nat.sub_self]
            symm
            rw [List.count_eq_zero]
            intro hmem2
            have hflt := (List.mem_filter.mp hmem2).2
            simp [hu] at hflt
          · rw [count_dropEntries_not_mem g.successors [nd] g.predecessors u v
              (by simp [hu])]
            rw [hcpd, List.count_filter]
            simp [hu, hvfacts.1]
        · intro u v
          calc (g.edges.filter (fun e => !(e.1 == nd || e.2 == nd))).count (u, v)
              ≤ g.edges.count (u, v) :=
                (List.filter_sublist _).count_le _
            _ = (dictGet g.successors u).count v := (hcsc u v).symm
        · intro e he
          have h1 := (List.mem_filter.mp he).1
          have h2 := (List.mem_filter.mp he).2
          simp only [Bool.not_eq_true', Bool.or_eq_false_iff, beq_eq_false_iff_ne] at h2
          refine ⟨?_, ?_⟩
          · rw [hsnd.mem_erase_iff]
            exact ⟨h2.1, hsperm.mem_iff.mpr (hval e h1).1⟩
          · rw [hsnd.mem_erase_iff]
            exact ⟨h2.2, hsperm.mem_iff.mpr (hval e h1).2⟩
      have hbase : (if (s.erase nd).isEmpty then g.nodes.erase nd
          else s.erase nd).Perm (s.erase nd) := by
        by_cases h : (s.erase nd).isEmpty
        · rw [if_pos h]
          exact (hsperm.erase nd).symm
        · rw [if_neg h]
      have hacy' : Acyclic (g.edges.filter (fun e => !(e.1 == nd || e.2 == nd))) :=
        acyclic_mono _ _ (fun x hx => (List.mem_filter.mp hx).1) hacy
      obtain ⟨out, hres, _, _⟩ :=
        kahn_sortingRes
          { g with nodes := g.nodes.erase nd, nodeWip := g.nodeWip ++ [nd] }
          (s.erase nd) _ (s.erase nd) hbase hK hacy'
      have hfold : [nd].foldl (fun acc x => acc.erase x) s = s.erase nd := rfl
      rw [hfold, hres]
      exact ⟨_, rfl, rfl, by simp [hwip], hndmem⟩

/-- Witness for C8 on the edge `A → B`, removing `B`. -/
theorem remove_nodes_ready_check_witness :
    (DiGraph.removeNodes
      ⟨["A", "B"], [("A", "B")], [("A", []), ("B", ["A"])],
        [("A", ["B"]), ("B", [])], [], some ["A", "B"]⟩ ["B"] true =
      .error .notReady) ∧
    (∃ g', DiGraph.removeNodes
      ⟨["A", "B"], [("A", "B")], [("A", []), ("B", ["A"])],
        [("A", ["B"]), ("B", [])], [], some ["A", "B"]⟩ ["B"] false =
      .ok g' ∧
      g'.nodes = ["A", "B"].erase "B" ∧ g'.nodeWip = ["B"] ∧
      "B" ∉ g'.nodes) :=
  ⟨(remove_nodes_ready_check
      ⟨["A", "B"], [("A", "B")], [("A", []), ("B", ["A"])],
        [("A", ["B"]), ("B", [])], [], some ["A", "B"]⟩ ["A", "B"] "B"
      rfl rfl (by decide) (by decide)
      (acyclic_of_rank _ (fun x => if x = "A" then 0 else 1) (by decide))
      rfl rfl (List.Perm.refl _) (by decide)).1 (by decide),
   (remove_nodes_ready_check
      ⟨["A", "B"], [("A", "B")], [("A", []), ("B", ["A"])],
        [("A", ["B"]), ("B", [])], [], some ["A", "B"]⟩ ["A", "B"] "B"
      rfl rfl (by decide) (by decide)
      (acyclic_of_rank _ (fun x => if x = "A" then 0 else 1) (by decide))
      rfl rfl (List.Perm.refl _) (by decide)).2⟩

/-- **C9** (counterexample): on the chain `A → B → C → D`,
`remove_successors_nodes(B)` can only be reached (without crashing on a
missing dictionary key or absent list element) after `A` has completed and
been retired and `B` has been removed for execution — the code pops `B`
from `_node_wip`, so `B` must be in flight, which requires its predecessor
`A` to have been detached.  In that state the call does return `{C, D}`,
but `A` is NOT in the active node list afterwards (the node list is in
fact empty), refuting the claim's "A is still in the active node list". -/
theorem remove_successors_chain_counterexample :
    (do
      let g0 ← construct ["A", "B", "C", "D"]
        [("A", "B"), ("B", "C"), ("C", "D")]
      let g1 ← sortFirst g0
      let g2 ← g1.removeNodes ["A"] true
      let g3 := g2.removeNodesConnections ["A"]
      let g4 ← g3.removeNodes ["B"] true
      g4.removeSuccessorsNodes "B") =
      .ok ((⟨[], [], [], [], [], some []⟩ : DiGraph), ["C", "D"]) ∧
    ¬ ("A" ∈ (⟨[], [], [], [], [], some []⟩ : DiGraph).nodes) := by
  exact ⟨rfl, by simp⟩

/-- **C9** (amended): in the reachable state of the chain `A → B → C → D`
where `A` has been retired (two-phase) and `B` is in flight,
`remove_successors_nodes(B)` returns exactly `{C, D}`, and afterwards no
edge in the edge list and no adjacency entry references `B`, `C` or `D`
(all were detached) — but `A` is no longer in the active node list, since
it had to be retired before `B` could run. -/
theorem remove_successors_chain_amended :
    (do
      let g0 ← construct ["A", "B", "C", "D"]
        [("A", "B"), ("B", "C"), ("C", "D")]
      let g1 ← sortFirst g0
      let g2 ← g1.removeNodes ["A"] true
      let g3 := g2.removeNodesConnections ["A"]
      let g4 ← g3.removeNodes ["B"] true
      g4.removeSuccessorsNodes "B") =
      .ok ((⟨[], [], [], [], [], some []⟩ : DiGraph), ["C", "D"]) ∧
    ["C", "D"].toFinset = ({"C", "D"} : Finset String) ∧
    (⟨[], [], [], [], [], some []⟩ : DiGraph).edges = [] ∧
    (⟨[], [], [], [], [], some []⟩ : DiGraph).predecessors = [] ∧
    (⟨[], [], [], [], [], some []⟩ : DiGraph).successors = [] ∧
    (⟨[], [], [], [], [], some []⟩ : DiGraph).nodes = [] := by
  exact ⟨rfl, by decide, rfl, rfl, rfl, rfl⟩

/-! ## Claim theorems: lazy fields and resolution -/

/-- **C5** (counterexample): `LazyField.cast` does not preserve the open
splitter set: casting a promise with open splitter `x` yields a promise
whose splitter set is empty (the constructor call passes `name`, `field`,
`attr_type` and the new `type` but not `splits`, which therefore takes the
attrs default, the empty set). -/
theorem cast_splits_counterexample :
    (LazyField.cast ⟨"a", "out", "output", .base "T", [.field "x"]⟩
      (.base "U")).splits = [] ∧
    (LazyField.cast ⟨"a", "out", "output", .base "T", [.field "x"]⟩
      (.base "U")).splits ≠
      (⟨"a", "out", "output", .base "T", [.field "x"]⟩ : LazyField).splits := by
  exact ⟨rfl, by decide⟩

/-- **C5** (amended): `cast` is a pure metadata change — it preserves the
owner name, the field and the direction, replaces the declared type, and
performs no resolution; but it resets the open-splitter set to empty
instead of copying it. -/
theorem cast_components (lf : LazyField) (t : PType) :
    (lf.cast t).name = lf.name ∧ (lf.cast t).field = lf.field ∧
    (lf.cast t).attr_type = lf.attr_type ∧ (lf.cast t).type = t ∧
    (lf.cast t).splits = [] :=
  ⟨rfl, rfl, rfl, rfl, rfl⟩

/-- **C4**: resolving an output-direction promise whose producing node's
result at the requested state index is an errored `Result` fails with the
upstream-failure error naming the origin node and field — the errored flag
is checked before any output is read, so no substitute or default value
can be produced. -/
theorem get_value_errored_upstream
    (lf : LazyField) (wf : Workflow) (idx : Option Nat) (node : WNode)
    (r : TaskResult)
    (hout : lf.attr_type = "output")
    (hnode : findVal wf.nodes lf.name = some node)
    (hres : node.result idx = some (.leaf r))
    (herr : r.errored = true) :
    lf.getValue wf idx = .error (.upstreamFailure lf.name lf.field) := by
  unfold LazyField.getValue
  rw [hout]
  rw [if_neg (by decide), if_pos rfl, hnode]
  show (match node.result idx with
    | none => Except.error RErr.attributeError
    | some tree => getNested lf (nestedSeqTypes lf.type) tree) = _
  rw [hres]
  show getNested lf (nestedSeqTypes lf.type) (ResTree.leaf r) = _
  unfold getNested
  rw [if_pos herr]

/-- Witness for C4: one node with an errored result. -/
theorem get_value_errored_upstream_witness :
    LazyField.getValue ⟨"b", "out", "output", .base "T", []⟩
      ⟨[], false, [("b", ⟨"b", fun _ => some (.leaf ⟨[], true⟩)⟩)]⟩ none =
      .error (.upstreamFailure "b" "out") :=
  get_value_errored_upstream ⟨"b", "out", "output", .base "T", []⟩
    ⟨[], false, [("b", ⟨"b", fun _ => some (.leaf ⟨[], true⟩)⟩)]⟩ none
    ⟨"b", fun _ => some (.leaf ⟨[], true⟩)⟩ ⟨[], true⟩ rfl rfl rfl rfl

/-- Shape of a successful promise derivation through
`LazyInterface.__getattr__`. -/
theorem lazyGetattr_some {n : TaskNode} {aT fname : String} {lf : LazyField}
    {n' : TaskNode} (hok : lazyGetattr n aT fname = some (lf, n')) :
    ∃ T splits', findVal n.fields fname = some T ∧
      applyCombiners n.splits n.combines = some splits' ∧
      lf = ⟨n.name, fname, aT,
        (if splits'.isEmpty then (if n.combines.isEmpty then T else .list T)
         else .split (if n.combines.isEmpty then T else .list T)), splits'⟩ ∧
      n' = { n with splits := splits' } := by
  unfold lazyGetattr at hok
  cases hf : findVal n.fields fname with
  | none =>
    rw [hf] at hok
    simp at hok
  | some T =>
    rw [hf] at hok
    cases hc : applyCombiners n.splits n.combines with
    | none =>
      rw [hc] at hok
      simp at hok
    | some splits' =>
      rw [hc] at hok
      simp only [Option.some.injEq, Prod.mk.injEq] at hok
      exact ⟨T, splits', rfl, rfl, hok.1.symm, hok.2.symm⟩

/-- **C2** (counterexample): a node with TWO open splitters `x`, `y` and
no combiner yields a promise whose declared type carries exactly ONE
`Split` level, not two — the per-splitter wrapping loop is commented out
in the source, and one `Split` is applied whenever any splitter remains. -/
theorem getattr_single_split_counterexample :
    (lazyGetattr ⟨"t", [("f", .base "T")], [.field "x", .field "y"], []⟩
      "output" "f").map (fun p => p.1.type) = some (.split (.base "T")) ∧
    (lazyGetattr ⟨"t", [("f", .base "T")], [.field "x", .field "y"], []⟩
      "output" "f").map (fun p => p.1.type) ≠
      some (.split (.split (.base "T"))) := by
  exact ⟨rfl, by decide⟩

/-- **C2** (amended): deriving a promise wraps the declared field type in
AT MOST one `Split` level — present exactly when open splitters remain
after the combiner matching, regardless of how many there are — plus AT
MOST one plain-list level — present exactly when the combine set is
nonempty, regardless of its size; so two uncombined splitters still give a
single `Split` level, while combining `y` out of `{x, y}` gives one
`Split` level around one plain-list level. -/
theorem getattr_type_wrapping
    (n : TaskNode) (aT fname : String) (lf : LazyField) (n' : TaskNode)
    (hok : lazyGetattr n aT fname = some (lf, n')) :
    ∃ T, findVal n.fields fname = some T ∧
      lf.splits = n'.splits ∧
      lf.type =
        (if lf.splits.isEmpty then (if n.combines.isEmpty then T else .list T)
         else .split (if n.combines.isEmpty then T else .list T)) := by
  obtain ⟨T, splits', hf, hc, hlf, hn'⟩ := lazyGetattr_some hok
  subst hlf
  subst hn'
  exact ⟨T, hf, rfl, rfl⟩

/-- Witness for C2: the two spec examples — splitters `x`, `y` with no
combiner (one `Split` level) and with `y` combined (one `Split` level
around one list level). -/
theorem getattr_type_wrapping_witness :
    (∃ T, findVal (⟨"t", [("f", .base "T")], [.field "x", .field "y"],
        []⟩ : TaskNode).fields "f" = some T ∧
      (⟨"t", "f", "output", .split (.base "T"),
        [.field "x", .field "y"]⟩ : LazyField).splits =
        (⟨"t", [("f", .base "T")], [.field "x", .field "y"],
          []⟩ : TaskNode).splits ∧
      (⟨"t", "f", "output", .split (.base "T"),
        [.field "x", .field "y"]⟩ : LazyField).type =
        (if (⟨"t", "f", "output", .split (.base "T"),
            [.field "x", .field "y"]⟩ : LazyField).splits.isEmpty then
          (if ([] : List String).isEmpty then T else .list T)
         else .split (if ([] : List String).isEmpty then T else .list T))) ∧
    (∃ T, findVal (⟨"t", [("f", .base "T")], [.field "x", .field "y"],
        ["y"]⟩ : TaskNode).fields "f" = some T ∧
      (⟨"t", "f", "output", .split (.list (.base "T")),
        [.field "x"]⟩ : LazyField).splits =
        (⟨"t", [("f", .base "T")], [.field "x"],
          ["y"]⟩ : TaskNode).splits ∧
      (⟨"t", "f", "output", .split (.list (.base "T")),
        [.field "x"]⟩ : LazyField).type =
        (if (⟨"t", "f", "output", .split (.list (.base "T")),
            [.field "x"]⟩ : LazyField).splits.isEmpty then
          (if (["y"] : List String).isEmpty then T else .list T)
         else .split (if (["y"] : List String).isEmpty then T
          else .list T))) :=
  ⟨getattr_type_wrapping ⟨"t", [("f", .base "T")],
      [.field "x", .field "y"], []⟩ "output" "f" _ _ rfl,
   getattr_type_wrapping ⟨"t", [("f", .base "T")],
      [.field "x", .field "y"], ["y"]⟩ "output" "f" _ _ rfl⟩

/-- Every successful combiner match removes exactly one splitter. -/
theorem removeCombiner_length {splits : List Splitter} {c : String}
    {s' : List Splitter} (h : removeCombiner splits c = some s') :
    s'.length + 1 = splits.length := by
  unfold removeCombiner at h
  by_cases hmem : Splitter.field c ∈ splits
  · rw [if_pos hmem] at h
    have hlen := List.length_erase_of_mem hmem
    have hpos : 0 < splits.length := List.length_pos.mpr
      (List.ne_nil_of_mem hmem)
    cases h
    omega
  · rw [if_neg hmem] at h
    cases hf : splits.find? (fun s => decide (c ∈ unwrapSplitter s)) with
    | none =>
      rw [hf] at h
      cases h
    | some sp =>
      rw [hf] at h
      cases h
      have hmem2 : sp ∈ splits := List.mem_of_find?_eq_some hf
      have hlen := List.length_erase_of_mem hmem2
      have hpos : 0 < splits.length := List.length_pos.mpr
        (List.ne_nil_of_mem hmem2)
      omega

/-- The combiner loop consumes one splitter per combiner. -/
theorem applyCombiners_length {splits : List Splitter} {cs : List String}
    {s' : List Splitter} (h : applyCombiners splits cs = some s') :
    s'.length + cs.length = splits.length := by
  induction cs generalizing splits with
  | nil =>
    unfold applyCombiners at h
    cases h
    rfl
  | cons c cs ih =>
    unfold applyCombiners at h
    cases hr : removeCombiner splits c with
    | none =>
      rw [hr] at h
      cases h
    | some s1 =>
      rw [hr] at h
      have h1 := removeCombiner_length hr
      have h2 := ih h
      simp only [List.length_cons]
      omega

/-- **C10** (counterexample): the second derivation does not always fail.
With the open splitters `{x, (x, y)}` and combine set `{x}`, the first
derivation removes the plain splitter `x` (mutating the node's set in
place); the second derivation falls back to the composite splitter
`(x, y)`, which mentions `x`, removes it and SUCCEEDS — returning a
different promise rather than raising. -/
theorem getattr_second_derivation_counterexample :
    ((lazyGetattr ⟨"t", [("f", .base "T")], [.field "x", .tup ["x", "y"]],
        ["x"]⟩ "output" "f").bind
      (fun p => lazyGetattr p.2 "output" "f")) =
      some (⟨"t", "f", "output", .list (.base "T"), []⟩,
        ⟨"t", [("f", .base "T")], [], ["x"]⟩) ∧
    ((lazyGetattr ⟨"t", [("f", .base "T")], [.field "x", .tup ["x", "y"]],
        ["x"]⟩ "output" "f").bind
      (fun p => lazyGetattr p.2 "output" "f")) ≠ none := by
  exact ⟨rfl, by decide⟩

/-- **C10** (amended): deriving a promise from a node with a nonempty
combine set mutates the node's own splitter set in place — the returned
owner's `_splits` IS the promise's splitter list, shrunk by one entry per
combiner — so derivation is not idempotent: a second derivation of the
same field never returns a promise equal to the first; it either fails
(when no remaining splitter mentions the combiner, the typical case) or
returns a promise with strictly fewer open splitters. -/
theorem getattr_not_idempotent
    (n : TaskNode) (aT fname : String) (lf1 : LazyField) (n1 : TaskNode)
    (hcne : n.combines ≠ [])
    (hok : lazyGetattr n aT fname = some (lf1, n1)) :
    n1.splits = lf1.splits ∧
    lf1.splits.length + n.combines.length = n.splits.length ∧
    (lazyGetattr n1 aT fname).map Prod.fst ≠ some lf1 := by
  obtain ⟨T, splits', hf, hc, hlf, hn'⟩ := lazyGetattr_some hok
  have hlen1 : splits'.length + n.combines.length = n.splits.length :=
    applyCombiners_length hc
  have hsplits1 : lf1.splits = splits' := by rw [hlf]
  refine ⟨by rw [hn', hsplits1], by rw [hsplits1]; exact hlen1, ?_⟩
  intro heq
  cases hsec : lazyGetattr n1 aT fname with
  | none =>
    rw [hsec] at heq
    simp at heq
  | some p =>
    obtain ⟨lf2, n2⟩ := p
    rw [hsec] at heq
    simp only [Option.map_some', Option.some.injEq] at heq
    obtain ⟨T2, splits'', hf2, hc2, hlf2, _⟩ := lazyGetattr_some hsec
    have hcomb1 : n1.combines = n.combines := by rw [hn']
    have hlen2 : splits''.length + n1.combines.length = n1.splits.length :=
      applyCombiners_length hc2
    have hns1 : n1.splits = splits' := by rw [hn']
    have hcpos : 0 < n.combines.length :=
      List.length_pos.mpr hcne
    have hlf2splits : lf2.splits = splits'' := by rw [hlf2]
    have hss : lf1.splits = splits'' := by rw [← heq, hlf2splits]
    rw [hsplits1] at hss
    rw [hcomb1, hns1] at hlen2
    rw [hss] at hlen2
    omega

/-- Witness for C10: splitters `{x}` combined by `x` — the first
derivation succeeds and empties the node's splitter set, the second one
fails. -/
theorem getattr_not_idempotent_witness :
    (⟨"t", [("f", .base "T")], [], ["x"]⟩ : TaskNode).splits =
      (⟨"t", "f", "output", .list (.base "T"), []⟩ : LazyField).splits ∧
    (⟨"t", "f", "output", .list (.base "T"),
      []⟩ : LazyField).splits.length + (["x"] : List String).length =
      ([Splitter.field "x"] : List Splitter).length ∧
    (lazyGetattr ⟨"t", [("f", .base "T")], [], ["x"]⟩ "output" "f").map
      Prod.fst ≠ some ⟨"t", "f", "output", .list (.base "T"), []⟩ :=
  getattr_not_idempotent ⟨"t", [("f", .base "T")], [.field "x"], ["x"]⟩
    "output" "f" ⟨"t", "f", "output", .list (.base "T"), []⟩
    ⟨"t", [("f", .base "T")], [], ["x"]⟩ (by decide) rfl

/-! ## An injective hash primitive for the fingerprint claim -/

theorem encPair_injective2 {a b c d : Nat} (h : encPair a b = encPair c d) :
    a = c ∧ b = d :=
  Nat.pair_eq_pair.mp h

theorem encList_injective : Function.Injective encList := by
  intro l1
  induction l1 with
  | nil =>
    intro l2 h
    cases l2 with
    | nil => rfl
    | cons b m =>
      exfalso
      rw [encList, encList] at h
      omega
  | cons a l ih =>
    intro l2 h
    cases l2 with
    | nil =>
      exfalso
      rw [encList, encList] at h
      omega
    | cons b m =>
      rw [encList, encList] at h
      have h2 := encPair_injective2 (by omega : encPair a (encList l) = encPair b (encList m))
      rw [h2.1, ih h2.2]

theorem charToNat_injective : Function.Injective Char.toNat := by
  intro a b h
  exact Char.ext (UInt32.toNat.inj h)

theorem strCode_injective : Function.Injective strCode := by
  intro s1 s2 h
  unfold strCode at h
  have h1 := encList_injective h
  have h2 := List.map_injective_iff.mpr charToNat_injective h1
  exact String.ext h2

theorem encodeHash_injective : Function.Injective encodeHash := by
  intro x y h
  cases x with
  | dict d1 =>
    cases y with
    | dict d2 =>
      unfold encodeHash at h
      have h1 := (encPair_injective2 h).2
      have h2 := encList_injective h1
      have h3 := List.map_injective_iff.mpr
        (fun (p q : String × Nat) hpq => by
          obtain ⟨hp1, hp2⟩ := encPair_injective2 hpq
          exact Prod.ext (strCode_injective hp1) hp2) h2
      rw [h3]
    | pair a b =>
      exfalso
      unfold encodeHash at h
      have := (encPair_injective2 h).1
      omega
  | pair a b =>
    cases y with
    | dict d2 =>
      exfalso
      unfold encodeHash at h
      have := (encPair_injective2 h).1
      omega
    | pair c d =>
      unfold encodeHash at h
      have h1 := (encPair_injective2 h).2
      obtain ⟨h2, h3⟩ := encPair_injective2 h1
      rw [h2, h3]

/-! ## Claim theorem: the spec fingerprint -/

/-- **C6** (counterexample): the hashes of two specs with IDENTICAL
field values — so no non-excluded field changes — differ as soon as the
`_graph_checksums` attribute differs: `_graph_checksums` is one of the
excluded bookkeeping names of `attr_fields`, yet `BaseSpec.hash` rehashes
the pair of the field hash and `self._graph_checksums`, so this excluded
field alone changes the result, refuting "the hashes differ only if a
non-excluded field's value changes". -/
theorem hash_excluded_checksum_counterexample :
    includedDict ⟨[⟨"x", some 1, false, false⟩], some 0⟩ =
      includedDict ⟨[⟨"x", some 1, false, false⟩], some 1⟩ ∧
    specHash encodeHash ⟨[⟨"x", some 1, false, false⟩], some 0⟩ ≠
      specHash encodeHash ⟨[⟨"x", some 1, false, false⟩], some 1⟩ := by
  exact ⟨rfl, by decide⟩

/-- **C6** (amended): with the external `hash_function` primitive assumed
injective (the spec's "equal fingerprints imply equal observable
inputs"), the hash of a spec is stable under repeated calls with
unchanged fields, and, for two instances of the same declared spec (same
fields with the same metadata in the same order), the hashes agree
exactly when BOTH the included field dictionary — every set field except
the internal bookkeeping names, output-file-template fields and
container-path fields — AND the nested `_graph_checksums` are unchanged:
so the hash changes if and only if a non-excluded field's value changes
or the excluded-but-rehashed structural checksum does. -/
theorem hash_stable_and_checksum_sensitive
    (h : HashInput → Nat) (hinj : Function.Injective h)
    (s1 s2 : Spec)
    (_hshape : s1.fields.map (fun f => (f.name, f.outputFileTemplate, f.containerPath)) =
      s2.fields.map (fun f => (f.name, f.outputFileTemplate, f.containerPath))) :
    specHash h s1 = specHash h s1 ∧
    (specHash h s1 = specHash h s2 ↔
      (includedDict s1 = includedDict s2 ∧
        s1.graphChecksums = s2.graphChecksums)) := by
  refine ⟨rfl, ?_⟩
  constructor
  · intro heq
    unfold specHash at heq
    cases hg1 : s1.graphChecksums with
    | none =>
      cases hg2 : s2.graphChecksums with
      | none =>
        rw [hg1, hg2] at heq
        simp only at heq
        exact ⟨HashInput.dict.inj (hinj heq), rfl⟩
      | some gc2 =>
        rw [hg1, hg2] at heq
        simp only at heq
        exact HashInput.noConfusion (hinj heq)
    | some gc1 =>
      cases hg2 : s2.graphChecksums with
      | none =>
        rw [hg1, hg2] at heq
        simp only at heq
        exact HashInput.noConfusion (hinj heq)
      | some gc2 =>
        rw [hg1, hg2] at heq
        simp only at heq
        have h1 := HashInput.pair.inj (hinj heq)
        exact ⟨HashInput.dict.inj (hinj h1.1), by rw [h1.2]⟩
  · rintro ⟨hd, hgc⟩
    unfold specHash
    rw [hd, hgc]

/-- Witness for C6: two instances of a one-field spec with different
values for the non-excluded field `x` and no nested checksums — the
hashes differ exactly because the included dictionaries differ. -/
theorem hash_stable_and_checksum_sensitive_witness :
    specHash encodeHash ⟨[⟨"x", some 1, false, false⟩], none⟩ =
      specHash encodeHash ⟨[⟨"x", some 1, false, false⟩], none⟩ ∧
    (specHash encodeHash ⟨[⟨"x", some 1, false, false⟩], none⟩ =
        specHash encodeHash ⟨[⟨"x", some 2, false, false⟩], none⟩ ↔
      (includedDict ⟨[⟨"x", some 1, false, false⟩], none⟩ =
          includedDict ⟨[⟨"x", some 2, false, false⟩], none⟩ ∧
        (⟨[⟨"x", some 1, false, false⟩], none⟩ : Spec).graphChecksums =
          (⟨[⟨"x", some 2, false, false⟩], none⟩ : Spec).graphChecksums)) :=
  hash_stable_and_checksum_sensitive encodeHash encodeHash_injective
    ⟨[⟨"x", some 1, false, false⟩], none⟩
    ⟨[⟨"x", some 2, false, false⟩], none⟩ rfl

end Pydra
